import Mathlib

/-!
# Price store and fan-out broadcast of `backend/main.go`

A shallow embedding of the price simulator (`priceUpdateWorker`), the
subscriber registry (`clients`), the broadcaster (`handleBroadcasts`) and the
connection lifecycle (`handleWebSocket`) of the trading dashboard backend,
with the properties of its specification stated and settled over it.

Modelling conventions.

* `float64`: the loop body of the simulator is embedded twice.
  `updateStock64` and `tickPrices64` round every operation to the nearest
  double (`f64`, ties to even), as the code does; the properties of the stored
  price and the interleaved models are stated on them.  `updateStock` and
  `tickPrices` carry out the same operations exactly on `ℚ`; they serve the
  sign of the price and the change field as a function of the draw.
* `int(x)` on a float is Go's conversion: the fraction is discarded
  (truncation toward zero).  When the truncated value does not fit the 64-bit
  `int`, Go leaves the result to the implementation; it is the parameter `ovf`
  of the model.
* A Go map is modelled by the list of its entries, keys pairwise distinct, and
  `range` visits the entries in the order of the list (Go leaves the order
  unspecified).
* A `*websocket.Conn` is modelled by a natural number (its identity).
-/

namespace Trading

/-! ## Data model -/

/-- Stock represents a stock with its current price (`type Stock struct`). -/
structure Stock where
  Symbol : String
  Price : ℚ
  Change : ℚ
deriving DecidableEq

/-- The map `map[string]*Stock` / `map[string]Stock`: entries in iteration order. -/
abbrev PriceMap := List (String × Stock)

/-- PriceUpdate represents a price update message for WebSocket
(`type PriceUpdate struct`; the Go field `Type` is called `Kind` here). -/
structure PriceUpdate where
  Kind : String
  Prices : PriceMap
deriving DecidableEq

/-- The seeded catalog: the initial value of the global `prices`. -/
def prices : PriceMap :=
  [ ("AAPL", { Symbol := "AAPL", Price := 178.50, Change := 0 }),
    ("TSLA", { Symbol := "TSLA", Price := 242.80, Change := 0 }),
    ("AMZN", { Symbol := "AMZN", Price := 145.30, Change := 0 }),
    ("INFY", { Symbol := "INFY", Price := 1450.75, Change := 0 }),
    ("TCS", { Symbol := "TCS", Price := 3520.40, Change := 0 }) ]

/-! ## Price simulator (`priceUpdateWorker`) -/

/-- Truncation toward zero: the value of Go's `int(x)` when it fits. -/
def truncate (x : ℚ) : ℤ := if 0 ≤ x then ⌊x⌋ else ⌈x⌉

/-- Least value of the 64-bit `int`. -/
def minInt64 : ℤ := -9223372036854775808

/-- Greatest value of the 64-bit `int`. -/
def maxInt64 : ℤ := 9223372036854775807

/-- The result of `int(x)` on amd64 when the truncated value is out of range:
the least 64-bit integer. -/
def ovfAmd64 : ℚ → ℤ := fun _ => minInt64

/-- Go's conversion `int(x)` of a float; `ovf x` is the implementation-dependent
result when the truncated value is outside the 64-bit range. -/
def toInt (ovf : ℚ → ℤ) (x : ℚ) : ℤ :=
  if minInt64 ≤ truncate x ∧ truncate x ≤ maxInt64 then truncate x else ovf x

/-- The relative change drawn for one instrument:
`changePercent := (rand.Float64() - 0.5) * 0.02`, with `r` the value returned
by `rand.Float64()`. -/
def changePercentOf (r : ℚ) : ℚ := (r - 0.5) * 0.02

/-- The body of the loop of `priceUpdateWorker` for one instrument, after the draw:
`newPrice := stock.Price * (1 + changePercent)`,
`newPrice = float64(int(newPrice*100)) / 100`,
`stock.Price = newPrice`, `stock.Change = changePercent * 100`. -/
def updateStock (ovf : ℚ → ℤ) (changePercent : ℚ) (stock : Stock) : Stock :=
  let newPrice := stock.Price * (1 + changePercent)
  let newPrice := ((toInt ovf (newPrice * 100) : ℤ) : ℚ) / 100
  { stock with Price := newPrice, Change := changePercent * 100 }

/-- The loop `for symbol, stock := range prices` of one tick of
`priceUpdateWorker`; `rand symbol` is the value `rand.Float64()` returns in the
iteration for `symbol`.  The result is the store after the tick. -/
def tickPrices (ovf : ℚ → ℤ) (rand : String → ℚ) (store : PriceMap) : PriceMap :=
  store.map fun e => (e.1, updateStock ovf (changePercentOf (rand e.1)) e.2)

/-- One tick of `priceUpdateWorker`: the store after the tick and the message
sent on the `broadcast` channel (`updatedPrices` holds a copy of every updated
stock). -/
def priceUpdateWorker (ovf : ℚ → ℤ) (rand : String → ℚ) (store : PriceMap) :
    PriceMap × PriceUpdate :=
  (tickPrices ovf rand store, { Kind := "update", Prices := tickPrices ovf rand store })

/-- Rounding to 2 decimal places as the specification words it:
`round(x, 2 decimal places)`, the nearest hundredth. -/
def specRound2 (x : ℚ) : ℚ := (round (x * 100) : ℚ) / 100

/-- Rounding to the nearest integer, ties to the even one. -/
def roundEven (y : ℚ) : ℤ :=
  if y - ⌊y⌋ < 1 / 2 then ⌊y⌋
  else if 1 / 2 < y - ⌊y⌋ then ⌊y⌋ + 1
  else if ⌊y⌋ % 2 = 0 then ⌊y⌋ else ⌊y⌋ + 1

/-- The binary exponent at which `x` is rounded: that of its leading bit, and
-1022 for the subnormal range. -/
def exponent64 (x : ℚ) : ℤ := max (Int.log 2 |x|) (-1022)

/-- The `float64` nearest to `x`: 53 significant bits, ties to even. -/
def f64 (x : ℚ) : ℚ :=
  if x = 0 then 0
  else (roundEven (x / 2 ^ (exponent64 x - 52)) : ℚ) * 2 ^ (exponent64 x - 52)

/-- The draw of one instrument in `float64`:
`changePercent := (rand.Float64() - 0.5) * 0.02`, with `r` the value returned
by `rand.Float64()`; the constant `0.02` is the nearest double. -/
def changePercent64 (r : ℚ) : ℚ := f64 (f64 (r - 0.5) * f64 0.02)

/-- The body of the loop of `priceUpdateWorker` for one instrument in
`float64`, after the draw:
`newPrice := stock.Price * (1 + changePercent)`,
`newPrice = float64(int(newPrice*100)) / 100`,
`stock.Price = newPrice`, `stock.Change = changePercent * 100`. -/
def updateStock64 (ovf : ℚ → ℤ) (changePercent : ℚ) (stock : Stock) : Stock :=
  let newPrice := f64 (stock.Price * f64 (1 + changePercent))
  let newPrice := f64 (f64 ((toInt ovf (f64 (newPrice * 100)) : ℤ) : ℚ) / 100)
  { stock with Price := newPrice, Change := f64 (changePercent * 100) }

/-- The double nearest 0.751, a value `rand.Float64()` can return. -/
def draw751 : ℚ := 6764406640310485 / 9007199254740992

/-- The multiple of 2^-53 nearest 0.001, a value `rand.Float64()` can return. -/
def draw001 : ℚ := 9007199254741 / 9007199254740992

/-- The loop `for symbol, stock := range prices` of one tick of
`priceUpdateWorker` in `float64`; `rand symbol` is the value `rand.Float64()`
returns in the iteration for `symbol`. -/
def tickPrices64 (ovf : ℚ → ℤ) (rand : String → ℚ) (store : PriceMap) : PriceMap :=
  store.map fun e => (e.1, updateStock64 ovf (changePercent64 (rand e.1)) e.2)

/-! ## Subscriber registry, broadcaster and connection lifecycle -/

/-- A `*websocket.Conn`, identified by a number. -/
abbrev Conn := ℕ

/-- The registry `clients : map[*websocket.Conn]bool`: its keys in iteration
order (every stored value is `true`). -/
abbrev Clients := List Conn

/-- The map assignment `clients[conn] = true`. -/
def mapSet (clients : Clients) (conn : Conn) : Clients :=
  if conn ∈ clients then clients else clients ++ [conn]

/-- The map deletion `delete(clients, conn)`. -/
def mapDelete (clients : Clients) (conn : Conn) : Clients :=
  clients.filter fun c => c != conn

/-- One call of `WriteJSON`: the connection, the message, and whether the call
returned without error. -/
structure Write where
  conn : Conn
  msg : PriceUpdate
  ok : Bool
deriving DecidableEq

/-- The shared state of the subsystem together with the state of the
connections.
* `prices`: the global price store;
* `clients`: the global registry;
* `broken`: the connections on which a write fails (the peer is gone, or the
  connection has been closed);
* `closed`: the connections on which `Close` has been called;
* `writes`: every `WriteJSON` call made so far, in order. -/
structure Sys where
  prices : PriceMap
  clients : Clients
  broken : List Conn
  closed : List Conn
  writes : List Write

/-- The state at process start: seeded prices, empty registry. -/
def Sys.init : Sys :=
  { prices := Trading.prices, clients := [], broken := [], closed := [], writes := [] }

/-- The call `conn.WriteJSON(msg)`: the write is recorded, it fails exactly on a
broken connection. -/
def writeJSON (conn : Conn) (msg : PriceUpdate) (s : Sys) : Sys × Bool :=
  let ok := !(s.broken.contains conn)
  ({ s with writes := s.writes ++ [{ conn := conn, msg := msg, ok := ok }] }, ok)

/-- The call `conn.Close()`: later writes on the connection fail. -/
def closeConn (conn : Conn) (s : Sys) : Sys :=
  { s with closed := s.closed ++ [conn], broken := conn :: s.broken }

/-- The peer of `conn` goes away (the client closes its end): writes to the
connection fail and its read loop ends. -/
def peerClose (conn : Conn) (s : Sys) : Sys :=
  { s with broken := conn :: s.broken }

/-- The body of `for client := range clients` in `handleBroadcasts`, for the
key `client` of the iteration order.  A key deleted from the map before the
iteration reaches it is not produced by `range`.
`err := client.WriteJSON(update)`; on error `client.Close()` and
`delete(clients, client)`. -/
def broadcastTo (update : PriceUpdate) (s : Sys) (client : Conn) : Sys :=
  if client ∈ s.clients then
    match writeJSON client update s with
    | (s1, true) => s1
    | (s1, false) =>
      let s2 := closeConn client s1
      { s2 with clients := mapDelete s2.clients client }
  else s

/-- One fan-out pass of `handleBroadcasts`: the body of
`for update := range broadcast` for the received `update`, ranging over the
registry as it is when the pass starts. -/
def handleBroadcasts (update : PriceUpdate) (s : Sys) : Sys :=
  s.clients.foldl (broadcastTo update) s

/-- The registration in `handleWebSocket`, the first critical section after the
upgrade: `clients[conn] = true`. -/
def hwsRegister (conn : Conn) (s : Sys) : Sys :=
  { s with clients := mapSet s.clients conn }

/-- The message `initialUpdate` of `handleWebSocket`: a copy of the store at
the time of the snapshot. -/
def initialUpdate (s : Sys) : PriceUpdate := { Kind := "initial", Prices := s.prices }

/-- The next part of `handleWebSocket`: the store is copied into
`initialPrices` and `conn.WriteJSON(initialUpdate)` is called; an error is only
logged. -/
def hwsSendInitial (conn : Conn) (s : Sys) : Sys :=
  (writeJSON conn (initialUpdate s) s).1

/-- The deferred function of `handleWebSocket`, run when the read loop ends:
`delete(clients, conn)` and `conn.Close()`. -/
def hwsCleanup (conn : Conn) (s : Sys) : Sys :=
  closeConn conn { s with clients := mapDelete s.clients conn }

/-- The parts of `handleWebSocket` in program order up to the read loop:
registration, then the initial message. -/
def hwsAdmit (conn : Conn) (s : Sys) : Sys :=
  hwsSendInitial conn (hwsRegister conn s)

/-- The progress of one reader goroutine. -/
inductive Reader where
  /-- before `pricesMutex.RLock()` -/
  | idle
  /-- holding the read lock, `next` entries of the store copied into `copy` -/
  | copying (next : ℕ) (copy : PriceMap)
  /-- after `pricesMutex.RUnlock()`, with the snapshot taken -/
  | done (copy : PriceMap)

/-- The progress of the tick of `priceUpdateWorker`. -/
inductive Worker where
  /-- waiting for the ticker -/
  | idle
  /-- holding the write lock, `next` entries of the store updated, drawing by `rand` -/
  | updating (rand : String → ℚ) (next : ℕ)

/-- The price store, its mutex and the goroutines working on it.
`ticked` lists the values the store had at process start and at the end of
every completed tick, most recent first. -/
structure Conc where
  prices : PriceMap
  writeLocked : Bool
  readLocks : ℕ
  worker : Worker
  readers : List Reader
  ticked : List PriceMap

/-- The steps of the goroutines. -/
inductive Ev where
  /-- the worker's `pricesMutex.Lock()` at the start of a tick drawing by `rand` -/
  | lock (rand : String → ℚ)
  /-- one iteration of the worker's loop -/
  | update
  /-- the worker's `pricesMutex.Unlock()` after the loop -/
  | unlock
  /-- the call `pricesMutex.RLock()` of reader `t` -/
  | rLock (t : ℕ)
  /-- one iteration of the copy loop of reader `t` -/
  | copy (t : ℕ)
  /-- the call `pricesMutex.RUnlock()` of reader `t` after its loop -/
  | rUnlock (t : ℕ)

/-- The start state with `n` readers: seeded store, mutex free. -/
def Conc.init (n : ℕ) : Conc :=
  { prices := Trading.prices, writeLocked := false, readLocks := 0, worker := Worker.idle,
    readers := List.replicate n Reader.idle, ticked := [Trading.prices] }

/-- One step; `none` when the goroutine cannot take the step in this state
(it is blocked on the mutex, or it is at another point of its code). -/
def step (ovf : ℚ → ℤ) (c : Conc) : Ev → Option Conc
  | Ev.lock rand =>
    match c.worker with
    | Worker.idle =>
      if c.writeLocked = false ∧ c.readLocks = 0 then
        some { c with writeLocked := true, worker := Worker.updating rand 0 }
      else none
    | Worker.updating _ _ => none
  | Ev.update =>
    match c.worker with
    | Worker.updating rand i =>
      match c.prices[i]? with
      | some (symbol, stock) =>
        some { c with
          prices := c.prices.set i
            (symbol, updateStock64 ovf (changePercent64 (rand symbol)) stock),
          worker := Worker.updating rand (i + 1) }
      | none => none
    | Worker.idle => none
  | Ev.unlock =>
    match c.worker with
    | Worker.updating _ i =>
      if c.prices.length ≤ i then
        some { c with writeLocked := false, worker := Worker.idle, ticked := c.prices :: c.ticked }
      else none
    | Worker.idle => none
  | Ev.rLock t =>
    match c.readers[t]? with
    | some Reader.idle =>
      if c.writeLocked = false then
        some { c with readLocks := c.readLocks + 1,
                      readers := c.readers.set t (Reader.copying 0 []) }
      else none
    | _ => none
  | Ev.copy t =>
    match c.readers[t]? with
    | some (Reader.copying i acc) =>
      match c.prices[i]? with
      | some e => some { c with readers := c.readers.set t (Reader.copying (i + 1) (acc ++ [e])) }
      | none => none
    | _ => none
  | Ev.rUnlock t =>
    match c.readers[t]? with
    | some (Reader.copying i acc) =>
      if c.prices.length ≤ i then
        some { c with readLocks := c.readLocks - 1, readers := c.readers.set t (Reader.done acc) }
      else none
    | _ => none

/-- A schedule run from a state; `none` when one of its steps cannot be taken. -/
def run (ovf : ℚ → ℤ) : List Ev → Conc → Option Conc
  | [], c => some c
  | e :: es, c =>
    match step ovf c e with
    | some c' => run ovf es c'
    | none => none

/-- Whether a reader holds the read lock. -/
def Reader.holdsLock : Reader → Bool
  | Reader.copying _ _ => true
  | _ => false

/-- The number of readers holding the read lock. -/
def lockHolders : List Reader → ℕ
  | [] => 0
  | r :: rs => (if r.holdsLock then 1 else 0) + lockHolders rs

/-- A history of the store, most recent first: it starts at the seeded catalog
and every later entry is the result of one whole tick on the entry before it. -/
def TickChain (ovf : ℚ → ℤ) : List PriceMap → Prop
  | [] => False
  | [p] => p = Trading.prices
  | post :: pre :: rest =>
    (∃ rand, tickPrices64 ovf rand pre = post) ∧ TickChain ovf (pre :: rest)

/-- The invariant of the interleaved system. -/
structure Inv (ovf : ℚ → ℤ) (c : Conc) : Prop where
  worker_idle : c.worker = Worker.idle → c.writeLocked = false
  worker_busy : ∀ rand i, c.worker = Worker.updating rand i → c.writeLocked = true
  holders : c.readLocks = lockHolders c.readers
  exclusive : c.writeLocked = true → c.readLocks = 0
  boundary : c.writeLocked = false → c.ticked.head? = some c.prices
  copied : ∀ i acc, Reader.copying i acc ∈ c.readers → acc = c.prices.take i
  snapshots : ∀ acc, Reader.done acc ∈ c.readers → acc ∈ c.ticked
  chain : TickChain ovf c.ticked
  progress : ∀ rand i, c.worker = Worker.updating rand i →
    ∃ front todo, c.ticked.head? = some (front ++ todo) ∧
      c.prices = tickPrices64 ovf rand front ++ todo ∧ i = front.length

/-- A state with the registry {1, 2, 3} in which the writes to connection 1 fail. -/
def oneBroken : Sys :=
  { prices := Trading.prices, clients := [1, 2, 3], broken := [1], closed := [], writes := [] }

/-- A state with the registry {1, 2, 3} and no broken connection. -/
def allLive : Sys :=
  { prices := Trading.prices, clients := [1, 2, 3], broken := [], closed := [], writes := [] }

/-- An update message carrying the seeded prices. -/
def someUpdate : PriceUpdate := { Kind := "update", Prices := Trading.prices }

/-- A schedule for two readers: reader 0 takes a complete snapshot, then one
tick runs (every draw r = 0.75), then reader 1 locks and copies the five
entries; its `RUnlock` is the next step. -/
def readTickRead : List Ev :=
  [Ev.rLock 0, Ev.copy 0, Ev.copy 0, Ev.copy 0, Ev.copy 0, Ev.copy 0, Ev.rUnlock 0,
   Ev.lock (fun _ => 0.75), Ev.update, Ev.update, Ev.update, Ev.update, Ev.update, Ev.unlock,
   Ev.rLock 1, Ev.copy 1, Ev.copy 1, Ev.copy 1, Ev.copy 1, Ev.copy 1]

/-! ## Lemmas on the simulator -/

theorem truncate_of_nonneg {x : ℚ} (h : 0 ≤ x) : truncate x = ⌊x⌋ := by
  simp [truncate, h]

/-- On a nonnegative value below 2^63 the conversion is the floor. -/
theorem toInt_of_nonneg (ovf : ℚ → ℤ) {x : ℚ} (h : 0 ≤ x) (hx : x < 9223372036854775808) :
    toInt ovf x = ⌊x⌋ := by
  have h0 : (0 : ℤ) ≤ ⌊x⌋ := Int.floor_nonneg.mpr h
  have h1 : ⌊x⌋ < 9223372036854775808 := by
    have : ((⌊x⌋ : ℤ) : ℚ) < ((9223372036854775808 : ℤ) : ℚ) :=
      lt_of_le_of_lt (Int.floor_le x) (by exact_mod_cast hx)
    exact_mod_cast this
  unfold toInt
  rw [truncate_of_nonneg h, if_pos]
  refine ⟨?_, ?_⟩
  · unfold minInt64; omega
  · unfold maxInt64; omega

theorem roundEven_err (y : ℚ) : |(roundEven y : ℚ) - y| ≤ 1 / 2 := by
  have h0 : 0 ≤ y - ⌊y⌋ := by linarith [Int.floor_le y]
  have h1 : y - ⌊y⌋ < 1 := by linarith [Int.lt_floor_add_one y]
  unfold roundEven
  split
  · rw [abs_le]; constructor <;> linarith
  · split
    · push_cast
      rw [abs_le]; constructor <;> linarith
    · have h2 : y - ⌊y⌋ = 1 / 2 := by
        rename_i ha hb
        exact le_antisymm (not_lt.mp hb) (not_lt.mp ha)
      split
      · rw [abs_le]; constructor <;> linarith
      · push_cast
        rw [abs_le]; constructor <;> linarith

theorem roundEven_nonneg {y : ℚ} (h : 0 ≤ y) : 0 ≤ roundEven y := by
  have h0 : (0 : ℤ) ≤ ⌊y⌋ := Int.floor_nonneg.mpr h
  unfold roundEven
  split
  · exact h0
  · split
    · omega
    · split
      · exact h0
      · omega

theorem f64_zero : f64 0 = 0 := by
  simp [f64]

theorem f64_nonneg {x : ℚ} (h : 0 ≤ x) : 0 ≤ f64 x := by
  unfold f64
  split
  · exact le_refl 0
  · have hq : (0 : ℚ) < 2 ^ (exponent64 x - 52) := by positivity
    have : (0 : ℤ) ≤ roundEven (x / 2 ^ (exponent64 x - 52)) :=
      roundEven_nonneg (div_nonneg h hq.le)
    have h' : (0 : ℚ) ≤ (roundEven (x / 2 ^ (exponent64 x - 52)) : ℚ) := by exact_mod_cast this
    positivity

/-- The rounding error is at most half a unit in the last place. -/
theorem f64_err_ulp (x : ℚ) : |f64 x - x| ≤ 2 ^ (exponent64 x - 52) / 2 := by
  have hq : (0 : ℚ) < 2 ^ (exponent64 x - 52) := by positivity
  unfold f64
  split
  · rename_i h0
    rw [h0]; simp only [sub_zero, abs_zero]; positivity
  · have h := roundEven_err (x / 2 ^ (exponent64 x - 52))
    have e : (roundEven (x / 2 ^ (exponent64 x - 52)) : ℚ) * 2 ^ (exponent64 x - 52) - x
        = ((roundEven (x / 2 ^ (exponent64 x - 52)) : ℚ) - x / 2 ^ (exponent64 x - 52))
            * 2 ^ (exponent64 x - 52) := by
      field_simp
    rw [e, abs_mul, abs_of_pos hq]
    calc |(roundEven (x / 2 ^ (exponent64 x - 52)) : ℚ) - x / 2 ^ (exponent64 x - 52)|
            * 2 ^ (exponent64 x - 52)
        ≤ 1 / 2 * 2 ^ (exponent64 x - 52) := mul_le_mul_of_nonneg_right h hq.le
      _ = 2 ^ (exponent64 x - 52) / 2 := by ring

/-- Relative rounding error 2^-53 in the normal range. -/
theorem f64_err {x : ℚ} (hx : (2 : ℚ) ^ (-1022 : ℤ) ≤ |x|) :
    |f64 x - x| ≤ |x| / 9007199254740992 := by
  have hpos : 0 < |x| := lt_of_lt_of_le (by positivity) hx
  have hlog : (-1022 : ℤ) ≤ Int.log 2 |x| := by
    have := (Int.zpow_le_iff_le_log (b := 2) (by norm_num) hpos).mp (by exact_mod_cast hx)
    exact this
  have he : exponent64 x = Int.log 2 |x| := max_eq_left hlog
  have hle : (2 : ℚ) ^ (Int.log 2 |x|) ≤ |x| := by
    have := Int.zpow_log_le_self (b := 2) (by norm_num) hpos
    exact_mod_cast this
  have h := f64_err_ulp x
  rw [he] at h
  have e : (2 : ℚ) ^ (Int.log 2 |x| - 52) / 2 = 2 ^ (Int.log 2 |x|) / 9007199254740992 := by
    rw [zpow_sub₀ (by norm_num)]
    norm_num
    ring
  rw [e] at h
  exact le_trans h (div_le_div_of_nonneg_right hle (by norm_num))

/-- A nonnegative value in the normal range keeps its size within 2^-53. -/
theorem f64_between {x : ℚ} (hx : (1 : ℚ) / 1000000 ≤ x) :
    x * (1 - 1 / 9007199254740992) ≤ f64 x ∧ f64 x ≤ x * (1 + 1 / 9007199254740992) := by
  have hx0 : 0 < x := lt_of_lt_of_le (by norm_num) hx
  have hn : (2 : ℚ) ^ (-1022 : ℤ) ≤ |x| := by
    rw [abs_of_pos hx0]
    refine le_trans ?_ hx
    have : (2 : ℚ) ^ (-1022 : ℤ) ≤ 2 ^ (-20 : ℤ) :=
      zpow_le_zpow_right₀ (by norm_num) (by norm_num)
    refine le_trans this ?_
    norm_num
  have h := f64_err hn
  rw [abs_of_pos hx0, abs_le] at h
  constructor <;> linarith [h.1, h.2]

theorem roundEven_eq_of_near {y : ℚ} {n : ℤ} (h1 : (n : ℚ) - 1 / 2 < y) (h2 : y < (n : ℚ) + 1 / 2) :
    roundEven y = n := by
  have h := roundEven_err y
  rw [abs_le] at h
  have ha : ((roundEven y : ℤ) : ℚ) < ((n + 1 : ℤ) : ℚ) := by push_cast; linarith [h.2]
  have hb : ((n - 1 : ℤ) : ℚ) < ((roundEven y : ℤ) : ℚ) := by push_cast; linarith [h.1]
  have ha' : roundEven y < n + 1 := by exact_mod_cast ha
  have hb' : n - 1 < roundEven y := by exact_mod_cast hb
  omega

/-- The value of `f64 x` from the binade of `x` and the nearest multiple of its
last place: `q` is the unit in the last place, `n` the rounded significand. -/
theorem f64_eq_of_abs (x q : ℚ) (e n : ℤ) (hq : q = 2 ^ (e - 52)) (he : -1022 ≤ e)
    (h1 : 4503599627370496 * q ≤ |x|) (h2 : |x| < 9007199254740992 * q)
    (hn1 : (n : ℚ) - 1 / 2 < x / q) (hn2 : x / q < (n : ℚ) + 1 / 2) :
    f64 x = n * q := by
  have hq0 : (0 : ℚ) < q := by rw [hq]; positivity
  have hpos : 0 < |x| := lt_of_lt_of_le (by positivity) h1
  have hx0 : x ≠ 0 := abs_pos.mp hpos
  have e1 : (2 : ℚ) ^ e = 4503599627370496 * q := by
    rw [hq, zpow_sub₀ (by norm_num)]
    norm_num
    ring
  have e2 : (2 : ℚ) ^ (e + 1) = 9007199254740992 * q := by
    rw [zpow_add_one₀ (by norm_num), e1]
    ring
  have hlog : Int.log 2 |x| = e := by
    have ha : e ≤ Int.log 2 |x| := by
      apply (Int.zpow_le_iff_le_log (b := 2) (by norm_num) hpos).mp
      have : ((2 : ℕ) : ℚ) ^ e = (2 : ℚ) ^ e := by norm_num
      rw [this, e1]
      exact h1
    have hb : Int.log 2 |x| < e + 1 := by
      apply (Int.lt_zpow_iff_log_lt (b := 2) (by norm_num) hpos).mp
      have : ((2 : ℕ) : ℚ) ^ (e + 1) = (2 : ℚ) ^ (e + 1) := by norm_num
      rw [this, e2]
      exact h2
    omega
  have hexp : exponent64 x = e := by
    unfold exponent64
    rw [hlog]
    exact max_eq_left he
  unfold f64
  rw [if_neg hx0, hexp, ← hq, roundEven_eq_of_near hn1 hn2]

theorem f64_eq_of_pos (x q : ℚ) (e n : ℤ) (hq : q = 2 ^ (e - 52)) (he : -1022 ≤ e)
    (h1 : 4503599627370496 * q ≤ x) (h2 : x < 9007199254740992 * q)
    (hn1 : (n : ℚ) - 1 / 2 < x / q) (hn2 : x / q < (n : ℚ) + 1 / 2) :
    f64 x = n * q := by
  have hq0 : (0 : ℚ) < q := by rw [hq]; positivity
  have hx : 0 < x := lt_of_lt_of_le (by positivity) h1
  exact f64_eq_of_abs x q e n hq he (by rw [abs_of_pos hx]; exact h1)
    (by rw [abs_of_pos hx]; exact h2) hn1 hn2

theorem f64_eq_of_neg (x q : ℚ) (e n : ℤ) (hq : q = 2 ^ (e - 52)) (he : -1022 ≤ e)
    (h1 : 4503599627370496 * q ≤ -x) (h2 : -x < 9007199254740992 * q)
    (hn1 : (n : ℚ) - 1 / 2 < x / q) (hn2 : x / q < (n : ℚ) + 1 / 2) :
    f64 x = n * q := by
  have hq0 : (0 : ℚ) < q := by rw [hq]; positivity
  have hx : x < 0 := by
    have : 0 < -x := lt_of_lt_of_le (by positivity) h1
    linarith
  exact f64_eq_of_abs x q e n hq he (by rw [abs_of_neg hx]; exact h1)
    (by rw [abs_of_neg hx]; exact h2) hn1 hn2

example : f64 0.02 = 5764607523034235 / 288230376151711744 := by
  rw [f64_eq_of_pos 0.02 (1 / 288230376151711744) (-6) 5764607523034235 (by norm_num)
    (by norm_num) (by norm_num) (by norm_num) (by norm_num) (by norm_num)]
  norm_num

/-- Rounding error in every range: relative 2^-53 plus half the least subnormal. -/
theorem f64_err_gen (x : ℚ) :
    |f64 x - x| ≤ |x| / 9007199254740992 + 2 ^ (-1075 : ℤ) := by
  by_cases hx : (2 : ℚ) ^ (-1022 : ℤ) ≤ |x|
  · have h := f64_err hx
    have : (0 : ℚ) ≤ 2 ^ (-1075 : ℤ) := by positivity
    linarith
  · have hx' : |x| < (2 : ℚ) ^ (-1022 : ℤ) := not_le.mp hx
    by_cases h0 : x = 0
    · rw [h0, f64_zero]
      simp only [sub_zero, abs_zero, zero_div, zero_add]
      positivity
    · have he : exponent64 x = -1022 := by
        unfold exponent64
        apply max_eq_right
        have hpos : 0 < |x| := abs_pos.mpr h0
        have : Int.log 2 |x| < -1022 := by
          apply (Int.lt_zpow_iff_log_lt (b := 2) (by norm_num) hpos).mp
          have e : ((2 : ℕ) : ℚ) ^ (-1022 : ℤ) = (2 : ℚ) ^ (-1022 : ℤ) := by norm_num
          rw [e]
          exact hx'
        omega
      have h := f64_err_ulp x
      rw [he] at h
      have e : (2 : ℚ) ^ ((-1022 : ℤ) - 52) / 2 = 2 ^ (-1075 : ℤ) := by
        rw [show ((-1022 : ℤ) - 52) = (-1075 : ℤ) + 1 by norm_num, zpow_add_one₀ (by norm_num)]
        ring
      rw [e] at h
      have h9 : (0 : ℚ) ≤ |x| / 9007199254740992 := by positivity
      exact le_trans h (le_add_of_nonneg_left h9)

theorem tiny_le : (2 : ℚ) ^ (-1075 : ℤ) ≤ 1 / 1267650600228229401496703205376 := by
  have : (2 : ℚ) ^ (-1075 : ℤ) ≤ 2 ^ (-100 : ℤ) :=
    zpow_le_zpow_right₀ (by norm_num) (by norm_num)
  refine le_trans this ?_
  norm_num

/-- Every draw of the code, from `r` in [0, 1], is within 0.01 + 2^-57 of 0. -/
theorem changePercent64_bounds {r : ℚ} (h0 : 0 ≤ r) (h1 : r ≤ 1) :
    |changePercent64 r| ≤ 0.01 + 1 / 144115188075855872 := by
  have ht := tiny_le
  have hd : |f64 (r - 0.5)| ≤ 1 / 2 * (1 + 1 / 9007199254740992)
      + 1 / 1267650600228229401496703205376 := by
    have hx : |r - 0.5| ≤ 1 / 2 := by
      rw [abs_le]; constructor <;> norm_num <;> linarith
    have he := f64_err_gen (r - 0.5)
    have h3 : |f64 (r - 0.5)| ≤ |r - 0.5| + |f64 (r - 0.5) - (r - 0.5)| := by
      have := abs_add (r - 0.5) (f64 (r - 0.5) - (r - 0.5))
      simpa using this
    linarith
  obtain ⟨hl, hu⟩ := f64_between (x := 0.02) (by norm_num)
  have hh0 : 0 ≤ f64 0.02 := f64_nonneg (by norm_num)
  have hprod : |f64 (r - 0.5) * f64 0.02|
      ≤ (1 / 2 * (1 + 1 / 9007199254740992) + 1 / 1267650600228229401496703205376)
        * (0.02 * (1 + 1 / 9007199254740992)) := by
    rw [abs_mul, abs_of_nonneg hh0]
    exact mul_le_mul hd hu hh0 (by norm_num)
  have he := f64_err_gen (f64 (r - 0.5) * f64 0.02)
  have h3 : |changePercent64 r| ≤ |f64 (r - 0.5) * f64 0.02|
      + |f64 (f64 (r - 0.5) * f64 0.02) - f64 (r - 0.5) * f64 0.02| := by
    have := abs_add (f64 (r - 0.5) * f64 0.02)
      (f64 (f64 (r - 0.5) * f64 0.02) - f64 (r - 0.5) * f64 0.02)
    simpa [changePercent64] using this
  have hfin : (1 / 2 * (1 + 1 / 9007199254740992) + 1 / 1267650600228229401496703205376)
        * (0.02 * (1 + 1 / 9007199254740992)) * (1 + 1 / 9007199254740992)
        + 1 / 1267650600228229401496703205376
      ≤ (0.01 : ℚ) + 1 / 144115188075855872 := by norm_num
  have hB : (0 : ℚ) ≤ |f64 (r - 0.5) * f64 0.02| := abs_nonneg _
  nlinarith [he, h3, hprod, hfin, ht, hB]

/-- The loop body in `float64` for a price in [0.01, 9e16] and a change within
1.01%: the integer `k` the conversion yields is the integer part of the
`float64` value of `p * (1 + c) * 100`, which is within three roundings of the
exact product. -/
theorem updateStock64_sandwich (ovf : ℚ → ℤ) (stock : Stock) (c : ℚ)
    (hp : 1 / 100 ≤ stock.Price) (hmax : stock.Price ≤ 90000000000000000)
    (hc1 : -0.0101 ≤ c) (hc2 : c ≤ 0.0101) :
    ∃ k : ℤ, 0 ≤ k ∧
      updateStock64 ovf c stock
        = { stock with Price := f64 (f64 (k : ℚ) / 100), Change := f64 (c * 100) } ∧
      (k : ℚ) ≤ 100 * (stock.Price * (1 + c)) * (1 + 1 / 2251799813685248) ∧
      100 * (stock.Price * (1 + c)) * (1 - 1 / 2251799813685248) < (k : ℚ) + 1 := by
  have hp0 : (0 : ℚ) ≤ stock.Price := le_trans (by norm_num) hp
  have hx1 : (1 : ℚ) / 1000000 ≤ 1 + c := by linarith
  obtain ⟨l1, u1⟩ := f64_between hx1
  have hc0 : (0 : ℚ) ≤ 1 + c := by linarith
  have ha1 : (98 : ℚ) / 100 ≤ f64 (1 + c) := by
    have : (98 : ℚ) / 100 ≤ (1 + c) * (1 - 1 / 9007199254740992) := by
      have h : (0.9899 : ℚ) ≤ 1 + c := by linarith
      calc (98 : ℚ) / 100 ≤ 0.9899 * (1 - 1 / 9007199254740992) := by norm_num
        _ ≤ (1 + c) * (1 - 1 / 9007199254740992) :=
            mul_le_mul_of_nonneg_right h (by norm_num)
    linarith
  have hx2 : (1 : ℚ) / 1000000 ≤ stock.Price * f64 (1 + c) := by
    calc (1 : ℚ) / 1000000 ≤ 1 / 100 * (98 / 100) := by norm_num
      _ ≤ stock.Price * f64 (1 + c) := mul_le_mul hp ha1 (by norm_num) hp0
  obtain ⟨l2, u2⟩ := f64_between hx2
  have hx3 : (1 : ℚ) / 1000000 ≤ f64 (stock.Price * f64 (1 + c)) * 100 := by
    have : (1 : ℚ) / 1000000 * (1 - 1 / 9007199254740992)
        ≤ stock.Price * f64 (1 + c) * (1 - 1 / 9007199254740992) :=
      mul_le_mul_of_nonneg_right hx2 (by norm_num)
    have h9 : (1 : ℚ) / 1000000 * (1 - 1 / 9007199254740992) * 100 ≥ 1 / 1000000 := by norm_num
    linarith
  obtain ⟨l3, u3⟩ := f64_between hx3
  -- the three roundings composed
  have hU1 : stock.Price * f64 (1 + c)
      ≤ stock.Price * ((1 + c) * (1 + 1 / 9007199254740992)) :=
    mul_le_mul_of_nonneg_left u1 hp0
  have hL1 : stock.Price * ((1 + c) * (1 - 1 / 9007199254740992))
      ≤ stock.Price * f64 (1 + c) :=
    mul_le_mul_of_nonneg_left l1 hp0
  have hU2 : f64 (stock.Price * f64 (1 + c))
      ≤ stock.Price * ((1 + c) * (1 + 1 / 9007199254740992)) * (1 + 1 / 9007199254740992) :=
    le_trans u2 (mul_le_mul_of_nonneg_right hU1 (by norm_num))
  have hL2 : stock.Price * ((1 + c) * (1 - 1 / 9007199254740992)) * (1 - 1 / 9007199254740992)
      ≤ f64 (stock.Price * f64 (1 + c)) :=
    le_trans (mul_le_mul_of_nonneg_right hL1 (by norm_num)) l2
  have hU3 : f64 (f64 (stock.Price * f64 (1 + c)) * 100)
      ≤ stock.Price * ((1 + c) * (1 + 1 / 9007199254740992)) * (1 + 1 / 9007199254740992)
          * 100 * (1 + 1 / 9007199254740992) :=
    le_trans u3 (mul_le_mul_of_nonneg_right
      (mul_le_mul_of_nonneg_right hU2 (by norm_num)) (by norm_num))
  have hL3 : stock.Price * ((1 + c) * (1 - 1 / 9007199254740992)) * (1 - 1 / 9007199254740992)
          * 100 * (1 - 1 / 9007199254740992)
      ≤ f64 (f64 (stock.Price * f64 (1 + c)) * 100) :=
    le_trans (mul_le_mul_of_nonneg_right
      (mul_le_mul_of_nonneg_right hL2 (by norm_num)) (by norm_num)) l3
  have hX0 : (0 : ℚ) ≤ stock.Price * (1 + c) := mul_nonneg hp0 hc0
  have hXmax : stock.Price * (1 + c) ≤ 90000000000000000 * 1.0101 :=
    mul_le_mul hmax (by linarith) hc0 (by norm_num)
  have hUp : f64 (f64 (stock.Price * f64 (1 + c)) * 100)
      ≤ 100 * (stock.Price * (1 + c)) * (1 + 1 / 2251799813685248) := by
    have e : stock.Price * ((1 + c) * (1 + 1 / 9007199254740992)) * (1 + 1 / 9007199254740992)
          * 100 * (1 + 1 / 9007199254740992)
        = 100 * (stock.Price * (1 + c))
          * ((1 + 1 / 9007199254740992) * (1 + 1 / 9007199254740992)
              * (1 + 1 / 9007199254740992)) := by ring
    have hk : ((1 : ℚ) + 1 / 9007199254740992) * (1 + 1 / 9007199254740992)
        * (1 + 1 / 9007199254740992) ≤ 1 + 1 / 2251799813685248 := by norm_num
    rw [e] at hU3
    exact le_trans hU3 (mul_le_mul_of_nonneg_left hk (by positivity))
  have hLo : 100 * (stock.Price * (1 + c)) * (1 - 1 / 2251799813685248)
      ≤ f64 (f64 (stock.Price * f64 (1 + c)) * 100) := by
    have e : stock.Price * ((1 + c) * (1 - 1 / 9007199254740992)) * (1 - 1 / 9007199254740992)
          * 100 * (1 - 1 / 9007199254740992)
        = 100 * (stock.Price * (1 + c))
          * ((1 - 1 / 9007199254740992) * (1 - 1 / 9007199254740992)
              * (1 - 1 / 9007199254740992)) := by ring
    have hk : (1 : ℚ) - 1 / 2251799813685248
        ≤ (1 - 1 / 9007199254740992) * (1 - 1 / 9007199254740992)
          * (1 - 1 / 9007199254740992) := by norm_num
    rw [e] at hL3
    exact le_trans (mul_le_mul_of_nonneg_left hk (by positivity)) hL3
  have h0 : 0 ≤ f64 (f64 (stock.Price * f64 (1 + c)) * 100) :=
    f64_nonneg (by linarith)
  have hlt : f64 (f64 (stock.Price * f64 (1 + c)) * 100) < 9223372036854775808 := by
    have : 100 * (stock.Price * (1 + c)) * (1 + 1 / 2251799813685248)
        ≤ 100 * (90000000000000000 * 1.0101) * (1 + 1 / 2251799813685248) :=
      mul_le_mul_of_nonneg_right (mul_le_mul_of_nonneg_left hXmax (by norm_num)) (by norm_num)
    have h2 : (100 : ℚ) * (90000000000000000 * 1.0101) * (1 + 1 / 2251799813685248)
        < 9223372036854775808 := by norm_num
    linarith
  refine ⟨⌊f64 (f64 (stock.Price * f64 (1 + c)) * 100)⌋, Int.floor_nonneg.mpr h0, ?_, ?_, ?_⟩
  · simp only [updateStock64, toInt_of_nonneg ovf h0 hlt]
  · exact le_trans (Int.floor_le _) hUp
  · exact lt_of_le_of_lt hLo (Int.lt_floor_add_one _)

/-- The stored price `float64(k)/100` is within two roundings of `k/100`. -/
theorem stored_between (k : ℤ) (hk : 0 ≤ k) :
    (k : ℚ) / 100 * ((1 - 1 / 9007199254740992) * (1 - 1 / 9007199254740992))
        ≤ f64 (f64 (k : ℚ) / 100) ∧
    f64 (f64 (k : ℚ) / 100)
        ≤ (k : ℚ) / 100 * ((1 + 1 / 9007199254740992) * (1 + 1 / 9007199254740992)) := by
  rcases hk.eq_or_lt with h | h
  · rw [← h]
    simp [f64_zero]
  · have h1 : (1 : ℚ) ≤ (k : ℚ) := by exact_mod_cast h
    obtain ⟨l1, u1⟩ := f64_between (x := (k : ℚ)) (by linarith)
    have hx : (1 : ℚ) / 1000000 ≤ f64 (k : ℚ) / 100 := by
      have : (1 : ℚ) * (1 - 1 / 9007199254740992) ≤ (k : ℚ) * (1 - 1 / 9007199254740992) :=
        mul_le_mul_of_nonneg_right h1 (by norm_num)
      have h9 : (1 : ℚ) / 1000000 ≤ 1 * (1 - 1 / 9007199254740992) / 100 := by norm_num
      linarith
    obtain ⟨l2, u2⟩ := f64_between hx
    constructor
    · have : (k : ℚ) * (1 - 1 / 9007199254740992) / 100 * (1 - 1 / 9007199254740992)
          ≤ f64 (k : ℚ) / 100 * (1 - 1 / 9007199254740992) :=
        mul_le_mul_of_nonneg_right (by linarith) (by norm_num)
      have e : (k : ℚ) / 100 * ((1 - 1 / 9007199254740992) * (1 - 1 / 9007199254740992))
          = (k : ℚ) * (1 - 1 / 9007199254740992) / 100 * (1 - 1 / 9007199254740992) := by ring
      rw [e]
      exact le_trans this l2
    · have : f64 (k : ℚ) / 100 * (1 + 1 / 9007199254740992)
          ≤ (k : ℚ) * (1 + 1 / 9007199254740992) / 100 * (1 + 1 / 9007199254740992) :=
        mul_le_mul_of_nonneg_right (by linarith) (by norm_num)
      have e : (k : ℚ) / 100 * ((1 + 1 / 9007199254740992) * (1 + 1 / 9007199254740992))
          = (k : ℚ) * (1 + 1 / 9007199254740992) / 100 * (1 + 1 / 9007199254740992) := by ring
      rw [e]
      exact le_trans u2 this

/-! ## Tick price formula and price bound in `float64` -/

theorem draw751_change : changePercent64 draw751 = ((1446916488281593 : ℚ) / 288230376151711744) := by
  have h1 : f64 (((6764406640310485 : ℚ) / 9007199254740992) - 0.5) = ((2260807012939989 : ℚ) / 9007199254740992) := by
    rw [f64_eq_of_pos (((6764406640310485 : ℚ) / 9007199254740992) - 0.5) (1 / 18014398509481984) (-2) 4521614025879978 (by norm_num) (by norm_num)
      (by norm_num) (by norm_num) (by norm_num) (by norm_num)]
    norm_num
  have h2 : f64 (0.02) = ((5764607523034235 : ℚ) / 288230376151711744) := by
    rw [f64_eq_of_pos (0.02) (1 / 288230376151711744) (-6) 5764607523034235 (by norm_num) (by norm_num)
      (by norm_num) (by norm_num) (by norm_num) (by norm_num)]
    norm_num
  have h3 : f64 (((2260807012939989 : ℚ) / 9007199254740992) * ((5764607523034235 : ℚ) / 288230376151711744)) = ((1446916488281593 : ℚ) / 288230376151711744) := by
    rw [f64_eq_of_pos (((2260807012939989 : ℚ) / 9007199254740992) * ((5764607523034235 : ℚ) / 288230376151711744)) (1 / 1152921504606846976) (-8) 5787665953126372 (by norm_num) (by norm_num)
      (by norm_num) (by norm_num) (by norm_num) (by norm_num)]
    norm_num
  unfold changePercent64 draw751
  rw [h1, h2, h3]

/-- C3 as stated fails: with AAPL at 178.50 and the draw r = 0.751 (the double
nearest to it; relative change +0.00502, inside [-0.01, +0.01]) the tick stores
the double 179.39, while 178.50 * 1.00502 = 179.39607 rounded to 2 decimal
places is 179.40. -/
theorem c3_rounding_counterexample :
    -0.01 ≤ changePercent64 draw751 ∧ changePercent64 draw751 ≤ 0.01 ∧
    updateStock64 ovfAmd64 (changePercent64 draw751)
        { Symbol := "AAPL", Price := 178.50, Change := 0 }
      = { Symbol := "AAPL", Price := f64 179.39,
          Change := f64 (changePercent64 draw751 * 100) } ∧
    specRound2 (178.50 * (1 + changePercent64 draw751)) = 179.40 ∧
    f64 179.39 ≠ f64 179.40 := by
  have h4 : f64 (1 + ((1446916488281593 : ℚ) / 288230376151711744)) = ((565775962187487 : ℚ) / 562949953421312) := by
    rw [f64_eq_of_pos (1 + ((1446916488281593 : ℚ) / 288230376151711744)) (1 / 4503599627370496) 0 4526207697499896 (by norm_num) (by norm_num)
      (by norm_num) (by norm_num) (by norm_num) (by norm_num)]
    norm_num
  have h5 : f64 (((357 : ℚ) / 2) * ((565775962187487 : ℚ) / 562949953421312)) = ((788992259769269 : ℚ) / 4398046511104) := by
    rw [f64_eq_of_pos (((357 : ℚ) / 2) * ((565775962187487 : ℚ) / 562949953421312)) (1 / 35184372088832) 7 6311938078154152 (by norm_num) (by norm_num)
      (by norm_num) (by norm_num) (by norm_num) (by norm_num)]
    norm_num
  have h6 : f64 (((788992259769269 : ℚ) / 4398046511104) * 100) = ((4931201623557931 : ℚ) / 274877906944) := by
    rw [f64_eq_of_pos (((788992259769269 : ℚ) / 4398046511104) * 100) (1 / 274877906944) 14 4931201623557931 (by norm_num) (by norm_num)
      (by norm_num) (by norm_num) (by norm_num) (by norm_num)]
    norm_num
  have h7 : f64 (((17939 : ℤ) : ℚ)) = (17939 : ℚ) := by
    rw [f64_eq_of_pos (((17939 : ℤ) : ℚ)) (1 / 274877906944) 14 4931034772668416 (by norm_num) (by norm_num)
      (by norm_num) (by norm_num) (by norm_num) (by norm_num)]
    norm_num
  have h8 : f64 ((17939 : ℚ) / 100) = ((1577931127253893 : ℚ) / 8796093022208) := by
    rw [f64_eq_of_pos ((17939 : ℚ) / 100) (1 / 35184372088832) 7 6311724509015572 (by norm_num) (by norm_num)
      (by norm_num) (by norm_num) (by norm_num) (by norm_num)]
    norm_num
  have e1 : f64 (179.39) = ((1577931127253893 : ℚ) / 8796093022208) := by
    rw [f64_eq_of_pos (179.39) (1 / 35184372088832) 7 6311724509015572 (by norm_num) (by norm_num)
      (by norm_num) (by norm_num) (by norm_num) (by norm_num)]
    norm_num
  have e2 : f64 (179.40) = ((6312076352736461 : ℚ) / 35184372088832) := by
    rw [f64_eq_of_pos (179.40) (1 / 35184372088832) 7 6312076352736461 (by norm_num) (by norm_num)
      (by norm_num) (by norm_num) (by norm_num) (by norm_num)]
    norm_num
  have hk : toInt ovfAmd64 ((4931201623557931 : ℚ) / 274877906944) = 17939 := by
    rw [toInt_of_nonneg _ (by norm_num) (by norm_num), Int.floor_eq_iff]
    norm_num
  have hp : (178.50 : ℚ) = ((357 : ℚ) / 2) := by norm_num
  rw [draw751_change]
  refine ⟨by norm_num, by norm_num, ?_, ?_, ?_⟩
  · simp only [updateStock64]
    rw [h4, hp, h5, h6, hk, h7, h8, e1]
  · unfold specRound2
    have hf : round ((178.50 : ℚ) * (1 + ((1446916488281593 : ℚ) / 288230376151711744)) * 100) = 17940 := by
      rw [round_eq, Int.floor_eq_iff]; norm_num
    rw [hf]; norm_num
  · rw [e1, e2]; norm_num

theorem draw75_change : changePercent64 0.75 = ((5764607523034235 : ℚ) / 1152921504606846976) := by
  have h1 : f64 (0.75 - 0.5) = ((1 : ℚ) / 4) := by
    rw [f64_eq_of_pos (0.75 - 0.5) (1 / 18014398509481984) (-2) 4503599627370496 (by norm_num) (by norm_num)
      (by norm_num) (by norm_num) (by norm_num) (by norm_num)]
    norm_num
  have h2 : f64 (0.02) = ((5764607523034235 : ℚ) / 288230376151711744) := by
    rw [f64_eq_of_pos (0.02) (1 / 288230376151711744) (-6) 5764607523034235 (by norm_num) (by norm_num)
      (by norm_num) (by norm_num) (by norm_num) (by norm_num)]
    norm_num
  have h3 : f64 (((1 : ℚ) / 4) * ((5764607523034235 : ℚ) / 288230376151711744)) = ((5764607523034235 : ℚ) / 1152921504606846976) := by
    rw [f64_eq_of_pos (((1 : ℚ) / 4) * ((5764607523034235 : ℚ) / 288230376151711744)) (1 / 1152921504606846976) (-8) 5764607523034235 (by norm_num) (by norm_num)
      (by norm_num) (by norm_num) (by norm_num) (by norm_num)]
    norm_num
  unfold changePercent64
  rw [h1, h2, h3]

theorem aapl_tick_75 :
    updateStock64 ovfAmd64 (changePercent64 0.75)
        { Symbol := "AAPL", Price := 178.50, Change := 0 }
      = { Symbol := "AAPL", Price := f64 179.39, Change := 0.5 } := by
  have h4 : f64 (1 + ((5764607523034235 : ℚ) / 1152921504606846976)) = ((1131529406376837 : ℚ) / 1125899906842624) := by
    rw [f64_eq_of_pos (1 + ((5764607523034235 : ℚ) / 1152921504606846976)) (1 / 4503599627370496) 0 4526117625507348 (by norm_num) (by norm_num)
      (by norm_num) (by norm_num) (by norm_num) (by norm_num)]
    norm_num
  have h5 : f64 (((357 : ℚ) / 2) * ((1131529406376837 : ℚ) / 1125899906842624)) = ((3155906234972897 : ℚ) / 17592186044416) := by
    rw [f64_eq_of_pos (((357 : ℚ) / 2) * ((1131529406376837 : ℚ) / 1125899906842624)) (1 / 35184372088832) 7 6311812469945794 (by norm_num) (by norm_num)
      (by norm_num) (by norm_num) (by norm_num) (by norm_num)]
    norm_num
  have h6 : f64 (((3155906234972897 : ℚ) / 17592186044416) * 100) = ((71757 : ℚ) / 4) := by
    rw [f64_eq_of_pos (((3155906234972897 : ℚ) / 17592186044416) * 100) (1 / 274877906944) 14 4931103492145152 (by norm_num) (by norm_num)
      (by norm_num) (by norm_num) (by norm_num) (by norm_num)]
    norm_num
  have h7 : f64 (((17939 : ℤ) : ℚ)) = (17939 : ℚ) := by
    rw [f64_eq_of_pos (((17939 : ℤ) : ℚ)) (1 / 274877906944) 14 4931034772668416 (by norm_num) (by norm_num)
      (by norm_num) (by norm_num) (by norm_num) (by norm_num)]
    norm_num
  have h8 : f64 ((17939 : ℚ) / 100) = ((1577931127253893 : ℚ) / 8796093022208) := by
    rw [f64_eq_of_pos ((17939 : ℚ) / 100) (1 / 35184372088832) 7 6311724509015572 (by norm_num) (by norm_num)
      (by norm_num) (by norm_num) (by norm_num) (by norm_num)]
    norm_num
  have h9 : f64 (((5764607523034235 : ℚ) / 1152921504606846976) * 100) = ((1 : ℚ) / 2) := by
    rw [f64_eq_of_pos (((5764607523034235 : ℚ) / 1152921504606846976) * 100) (1 / 9007199254740992) (-1) 4503599627370496 (by norm_num) (by norm_num)
      (by norm_num) (by norm_num) (by norm_num) (by norm_num)]
    norm_num
  have e1 : f64 (179.39) = ((1577931127253893 : ℚ) / 8796093022208) := by
    rw [f64_eq_of_pos (179.39) (1 / 35184372088832) 7 6311724509015572 (by norm_num) (by norm_num)
      (by norm_num) (by norm_num) (by norm_num) (by norm_num)]
    norm_num
  have hk : toInt ovfAmd64 ((71757 : ℚ) / 4) = 17939 := by
    rw [toInt_of_nonneg _ (by norm_num) (by norm_num), Int.floor_eq_iff]
    norm_num
  have hp : (178.50 : ℚ) = ((357 : ℚ) / 2) := by norm_num
  rw [draw75_change]
  simp only [updateStock64]
  rw [h4, hp, h5, h6, hk, h7, h8, h9, e1]
  norm_num

theorem draw001_change : changePercent64 draw001 = ((-5753078307988167 : ℚ) / 576460752303423488) := by
  have h1 : f64 (((9007199254741 : ℚ) / 9007199254740992) - 0.5) = ((-4494592428115755 : ℚ) / 9007199254740992) := by
    rw [f64_eq_of_neg (((9007199254741 : ℚ) / 9007199254740992) - 0.5) (1 / 18014398509481984) (-2) (-8989184856231510) (by norm_num) (by norm_num)
      (by norm_num) (by norm_num) (by norm_num) (by norm_num)]
    norm_num
  have h2 : f64 (0.02) = ((5764607523034235 : ℚ) / 288230376151711744) := by
    rw [f64_eq_of_pos (0.02) (1 / 288230376151711744) (-6) 5764607523034235 (by norm_num) (by norm_num)
      (by norm_num) (by norm_num) (by norm_num) (by norm_num)]
    norm_num
  have h3 : f64 (((-4494592428115755 : ℚ) / 9007199254740992) * ((5764607523034235 : ℚ) / 288230376151711744)) = ((-5753078307988167 : ℚ) / 576460752303423488) := by
    rw [f64_eq_of_neg (((-4494592428115755 : ℚ) / 9007199254740992) * ((5764607523034235 : ℚ) / 288230376151711744)) (1 / 576460752303423488) (-7) (-5753078307988167) (by norm_num) (by norm_num)
      (by norm_num) (by norm_num) (by norm_num) (by norm_num)]
    norm_num
  unfold changePercent64 draw001
  rw [h1, h2, h3]

theorem f64_17671 : f64 176.71 = ((6217430391817503 : ℚ) / 35184372088832) := by
  have e1 : f64 (176.71) = ((6217430391817503 : ℚ) / 35184372088832) := by
    rw [f64_eq_of_pos (176.71) (1 / 35184372088832) 7 6217430391817503 (by norm_num) (by norm_num)
      (by norm_num) (by norm_num) (by norm_num) (by norm_num)]
    norm_num
  exact e1

theorem aapl_tick_001 :
    updateStock64 ovfAmd64 (changePercent64 draw001)
        { Symbol := "AAPL", Price := 178.50, Change := 0 }
      = { Symbol := "AAPL", Price := f64 176.71,
          Change := f64 (changePercent64 draw001 * 100) } := by
  have h4 : f64 (1 + ((-5753078307988167 : ℚ) / 576460752303423488)) = ((8917307406178677 : ℚ) / 9007199254740992) := by
    rw [f64_eq_of_pos (1 + ((-5753078307988167 : ℚ) / 576460752303423488)) (1 / 9007199254740992) (-1) 8917307406178677 (by norm_num) (by norm_num)
      (by norm_num) (by norm_num) (by norm_num) (by norm_num)]
    norm_num
  have h5 : f64 (((357 : ℚ) / 2) * ((8917307406178677 : ℚ) / 9007199254740992)) = ((194304122558947 : ℚ) / 1099511627776) := by
    rw [f64_eq_of_pos (((357 : ℚ) / 2) * ((8917307406178677 : ℚ) / 9007199254740992)) (1 / 35184372088832) 7 6217731921886304 (by norm_num) (by norm_num)
      (by norm_num) (by norm_num) (by norm_num) (by norm_num)]
    norm_num
  have h6 : f64 (((194304122558947 : ℚ) / 1099511627776) * 100) = ((4857603063973675 : ℚ) / 274877906944) := by
    rw [f64_eq_of_pos (((194304122558947 : ℚ) / 1099511627776) * 100) (1 / 274877906944) 14 4857603063973675 (by norm_num) (by norm_num)
      (by norm_num) (by norm_num) (by norm_num) (by norm_num)]
    norm_num
  have h7 : f64 (((17671 : ℤ) : ℚ)) = (17671 : ℚ) := by
    rw [f64_eq_of_pos (((17671 : ℤ) : ℚ)) (1 / 274877906944) 14 4857367493607424 (by norm_num) (by norm_num)
      (by norm_num) (by norm_num) (by norm_num) (by norm_num)]
    norm_num
  have h8 : f64 ((17671 : ℚ) / 100) = ((6217430391817503 : ℚ) / 35184372088832) := by
    rw [f64_eq_of_pos ((17671 : ℚ) / 100) (1 / 35184372088832) 7 6217430391817503 (by norm_num) (by norm_num)
      (by norm_num) (by norm_num) (by norm_num) (by norm_num)]
    norm_num
  have hk : toInt ovfAmd64 ((4857603063973675 : ℚ) / 274877906944) = 17671 := by
    rw [toInt_of_nonneg _ (by norm_num) (by norm_num), Int.floor_eq_iff]
    norm_num
  have hp : (178.50 : ℚ) = ((357 : ℚ) / 2) := by norm_num
  rw [draw001_change]
  simp only [updateStock64]
  rw [h4, hp, h5, h6, hk, h7, h8, f64_17671]

/-- A price of 100.00 with the draw r = 0.75: the `float64` product is just
below 100.50 and the tick stores 100.49. -/
theorem hundred_tick_75 :
    updateStock64 ovfAmd64 (changePercent64 0.75)
        { Symbol := "X", Price := 100, Change := 0 }
      = { Symbol := "X", Price := f64 100.49, Change := 0.5 } := by
  have h4 : f64 (1 + ((5764607523034235 : ℚ) / 1152921504606846976)) = ((1131529406376837 : ℚ) / 1125899906842624) := by
    rw [f64_eq_of_pos (1 + ((5764607523034235 : ℚ) / 1152921504606846976)) (1 / 4503599627370496) 0 4526117625507348 (by norm_num) (by norm_num)
      (by norm_num) (by norm_num) (by norm_num) (by norm_num)]
    norm_num
  have h5 : f64 ((100 : ℚ) * ((1131529406376837 : ℚ) / 1125899906842624)) = ((7072058789855231 : ℚ) / 70368744177664) := by
    rw [f64_eq_of_pos ((100 : ℚ) * ((1131529406376837 : ℚ) / 1125899906842624)) (1 / 70368744177664) 6 7072058789855231 (by norm_num) (by norm_num)
      (by norm_num) (by norm_num) (by norm_num) (by norm_num)]
    norm_num
  have h6 : f64 (((7072058789855231 : ℚ) / 70368744177664) * 100) = ((5525045929574399 : ℚ) / 549755813888) := by
    rw [f64_eq_of_pos (((7072058789855231 : ℚ) / 70368744177664) * 100) (1 / 549755813888) 13 5525045929574399 (by norm_num) (by norm_num)
      (by norm_num) (by norm_num) (by norm_num) (by norm_num)]
    norm_num
  have h7 : f64 (((10049 : ℤ) : ℚ)) = (10049 : ℚ) := by
    rw [f64_eq_of_pos (((10049 : ℤ) : ℚ)) (1 / 549755813888) 13 5524496173760512 (by norm_num) (by norm_num)
      (by norm_num) (by norm_num) (by norm_num) (by norm_num)]
    norm_num
  have h8 : f64 ((10049 : ℚ) / 100) = ((7071355102413455 : ℚ) / 70368744177664) := by
    rw [f64_eq_of_pos ((10049 : ℚ) / 100) (1 / 70368744177664) 6 7071355102413455 (by norm_num) (by norm_num)
      (by norm_num) (by norm_num) (by norm_num) (by norm_num)]
    norm_num
  have h9 : f64 (((5764607523034235 : ℚ) / 1152921504606846976) * 100) = ((1 : ℚ) / 2) := by
    rw [f64_eq_of_pos (((5764607523034235 : ℚ) / 1152921504606846976) * 100) (1 / 9007199254740992) (-1) 4503599627370496 (by norm_num) (by norm_num)
      (by norm_num) (by norm_num) (by norm_num) (by norm_num)]
    norm_num
  have e1 : f64 (100.49) = ((7071355102413455 : ℚ) / 70368744177664) := by
    rw [f64_eq_of_pos (100.49) (1 / 70368744177664) 6 7071355102413455 (by norm_num) (by norm_num)
      (by norm_num) (by norm_num) (by norm_num) (by norm_num)]
    norm_num
  have hk : toInt ovfAmd64 ((5525045929574399 : ℚ) / 549755813888) = 10049 := by
    rw [toInt_of_nonneg _ (by norm_num) (by norm_num), Int.floor_eq_iff]
    norm_num
  rw [draw75_change]
  simp only [updateStock64]
  rw [h4, h5, h6, hk, h7, h8, h9, e1]
  norm_num

theorem updateStock64_zero (ovf : ℚ → ℤ) (c : ℚ) (stock : Stock) (h : stock.Price = 0) :
    updateStock64 ovf c stock
      = { stock with Price := f64 (f64 ((0 : ℤ) : ℚ) / 100), Change := f64 (c * 100) } := by
  have h0 : toInt ovf 0 = 0 := by
    rw [toInt_of_nonneg ovf (le_refl 0) (by norm_num)]
    simp
  simp only [updateStock64, h, zero_mul, f64_zero, h0]

/-- C3 (amended): for an instrument with old price p = 0 or 0.01 ≤ p ≤ 9e16
and a relative change c with abs c ≤ 0.0101 (every draw of the code is
such), one tick sets the price to float64(k)/100, where the integer k is the
truncation (not the rounding) of the float64 value of p * (1 + c) * 100:
k/100 ≤ p * (1 + c) * (1 + 2^-51) and p * (1 + c) * (1 - 2^-51) < (k + 1)/100;
the change field becomes the float64 product c * 100 and the symbol is kept. -/
theorem c3_tick_price_truncated (ovf : ℚ → ℤ) (stock : Stock) (c : ℚ)
    (hp : stock.Price = 0 ∨ 1 / 100 ≤ stock.Price) (hmax : stock.Price ≤ 90000000000000000)
    (hc1 : -0.0101 ≤ c) (hc2 : c ≤ 0.0101) :
    ∃ k : ℤ, 0 ≤ k ∧
      updateStock64 ovf c stock
        = { stock with Price := f64 (f64 (k : ℚ) / 100), Change := f64 (c * 100) } ∧
      (k : ℚ) / 100 ≤ stock.Price * (1 + c) * (1 + 1 / 2251799813685248) ∧
      stock.Price * (1 + c) * (1 - 1 / 2251799813685248) < ((k : ℚ) + 1) / 100 := by
  rcases hp with h0 | hp
  · refine ⟨0, le_refl 0, updateStock64_zero ovf c stock h0, ?_, ?_⟩
    · rw [h0]; norm_num
    · rw [h0]; norm_num
  · obtain ⟨k, hk0, hk, h1, h2⟩ := updateStock64_sandwich ovf stock c hp hmax hc1 hc2
    refine ⟨k, hk0, hk, ?_, ?_⟩
    · linarith
    · linarith

/-- The scenario of C3: AAPL at 178.50 with the draw r = 0.75 (relative change
the double +0.005) gives the double 179.39 and change 0.5, an instance of the
amended C3; and a price of 100.00 with the same draw gives 100.49, one
hundredth below the exact truncation 100.50. -/
theorem c3_tick_price_truncated_witness :
    updateStock64 ovfAmd64 (changePercent64 0.75)
        { Symbol := "AAPL", Price := 178.50, Change := 0 }
      = { Symbol := "AAPL", Price := f64 179.39, Change := 0.5 } ∧
    updateStock64 ovfAmd64 (changePercent64 0.75)
        { Symbol := "X", Price := 100, Change := 0 }
      = { Symbol := "X", Price := f64 100.49, Change := 0.5 } ∧
    ∃ k : ℤ, 0 ≤ k ∧
      updateStock64 ovfAmd64 (changePercent64 0.75)
          { Symbol := "AAPL", Price := 178.50, Change := 0 }
        = { Symbol := "AAPL", Price := f64 (f64 (k : ℚ) / 100),
            Change := f64 (changePercent64 0.75 * 100) } ∧
      (k : ℚ) / 100 ≤ 178.50 * (1 + changePercent64 0.75) * (1 + 1 / 2251799813685248) ∧
      178.50 * (1 + changePercent64 0.75) * (1 - 1 / 2251799813685248)
        < ((k : ℚ) + 1) / 100 :=
  ⟨aapl_tick_75, hundred_tick_75,
   c3_tick_price_truncated ovfAmd64 { Symbol := "AAPL", Price := 178.50, Change := 0 }
     (changePercent64 0.75) (Or.inr (by norm_num)) (by norm_num)
     (by rw [draw75_change]; norm_num) (by rw [draw75_change]; norm_num)⟩

/-- C4 as stated fails: with AAPL at 178.50 and the draw r = 0.001 (the nearest
multiple of 2^-53; relative change -0.00998) the tick stores the double 176.71,
and abs(176.71 / 178.50 - 1) exceeds 0.01. -/
theorem c4_price_bound_counterexample :
    0 ≤ draw001 ∧ draw001 < 1 ∧
    updateStock64 ovfAmd64 (changePercent64 draw001)
        { Symbol := "AAPL", Price := 178.50, Change := 0 }
      = { Symbol := "AAPL", Price := f64 176.71,
          Change := f64 (changePercent64 draw001 * 100) } ∧
    ¬ (|f64 176.71 / 178.50 - 1| ≤ 0.01) := by
  refine ⟨by unfold draw001; norm_num, by unfold draw001; norm_num, aapl_tick_001, ?_⟩
  rw [f64_17671, not_le]
  have h : (6217430391817503 : ℚ) / 35184372088832 / 178.50 - 1 < 0 := by norm_num
  rw [abs_of_neg h]
  norm_num

/-- C4 (amended): for every instrument with old price 0.01 ≤ p ≤ 9e16 and
every draw r in [0, 1), the new price of one tick is float64(k)/100 for a whole
number k ≥ 0 of hundredths and
abs(newPrice/oldPrice - 1) ≤ 0.01 + 0.01/oldPrice + 2^-50: the truncation to
hundredths can take up to one hundredth off the price on top of the drawn
change, and 2^-50 covers the float64 roundings. -/
theorem c4_price_bound_truncated (ovf : ℚ → ℤ) (stock : Stock) (r : ℚ)
    (hp : 1 / 100 ≤ stock.Price) (hmax : stock.Price ≤ 90000000000000000)
    (hr0 : 0 ≤ r) (hr1 : r < 1) :
    (∃ k : ℤ, 0 ≤ k ∧
      (updateStock64 ovf (changePercent64 r) stock).Price = f64 (f64 (k : ℚ) / 100)) ∧
    |(updateStock64 ovf (changePercent64 r) stock).Price / stock.Price - 1|
      ≤ 0.01 + 0.01 / stock.Price + 1 / 1125899906842624 := by
  have hp0 : (0 : ℚ) < stock.Price := lt_of_lt_of_le (by norm_num) hp
  have hc := changePercent64_bounds hr0 hr1.le
  rw [abs_le] at hc
  obtain ⟨hcl, hcu⟩ := hc
  obtain ⟨k, hk0, hk, hup, hlo⟩ := updateStock64_sandwich ovf stock (changePercent64 r) hp hmax
    (by linarith) (by linarith)
  obtain ⟨sl, su⟩ := stored_between k hk0
  rw [hk]
  refine ⟨⟨k, hk0, rfl⟩, ?_⟩
  show |f64 (f64 (k : ℚ) / 100) / stock.Price - 1| ≤ 0.01 + 0.01 / stock.Price + 1 / 1125899906842624
  have hk' : (0 : ℚ) ≤ (k : ℚ) := by exact_mod_cast hk0
  -- upper bound on the stored price
  have hU : f64 (f64 (k : ℚ) / 100)
      ≤ stock.Price * (1 + 0.01 + 1 / 1125899906842624) := by
    have h1 : (k : ℚ) / 100 ≤ stock.Price * (1 + changePercent64 r) * (1 + 1 / 2251799813685248) := by
      linarith
    have h2 : stock.Price * (1 + changePercent64 r)
        ≤ stock.Price * (1 + (0.01 + 1 / 144115188075855872)) :=
      mul_le_mul_of_nonneg_left (by linarith) hp0.le
    have h3 : (k : ℚ) / 100
        ≤ stock.Price * (1 + (0.01 + 1 / 144115188075855872)) * (1 + 1 / 2251799813685248) :=
      le_trans h1 (mul_le_mul_of_nonneg_right h2 (by norm_num))
    have h4 : (k : ℚ) / 100 * ((1 + 1 / 9007199254740992) * (1 + 1 / 9007199254740992))
        ≤ stock.Price * (1 + (0.01 + 1 / 144115188075855872)) * (1 + 1 / 2251799813685248)
          * ((1 + 1 / 9007199254740992) * (1 + 1 / 9007199254740992)) :=
      mul_le_mul_of_nonneg_right h3 (by norm_num)
    have h5 : ((1 : ℚ) + (0.01 + 1 / 144115188075855872)) * (1 + 1 / 2251799813685248)
          * ((1 + 1 / 9007199254740992) * (1 + 1 / 9007199254740992))
        ≤ 1 + 0.01 + 1 / 1125899906842624 := by norm_num
    have h6 : stock.Price * (1 + (0.01 + 1 / 144115188075855872)) * (1 + 1 / 2251799813685248)
          * ((1 + 1 / 9007199254740992) * (1 + 1 / 9007199254740992))
        = stock.Price * ((1 + (0.01 + 1 / 144115188075855872)) * (1 + 1 / 2251799813685248)
          * ((1 + 1 / 9007199254740992) * (1 + 1 / 9007199254740992))) := by ring
    rw [h6] at h4
    exact le_trans su (le_trans h4 (mul_le_mul_of_nonneg_left h5 hp0.le))
  -- lower bound on the stored price
  have hL : stock.Price * (1 - 0.01 - 1 / 1125899906842624) - 1 / 100
      ≤ f64 (f64 (k : ℚ) / 100) := by
    have h1 : stock.Price * (1 + changePercent64 r) * (1 - 1 / 2251799813685248) - 1 / 100
        ≤ (k : ℚ) / 100 := by linarith
    have h2 : stock.Price * (1 - (0.01 + 1 / 144115188075855872))
        ≤ stock.Price * (1 + changePercent64 r) :=
      mul_le_mul_of_nonneg_left (by linarith) hp0.le
    have h3 : stock.Price * (1 - (0.01 + 1 / 144115188075855872)) * (1 - 1 / 2251799813685248)
          - 1 / 100 ≤ (k : ℚ) / 100 :=
      le_trans (by
        have hb : (0 : ℚ) ≤ 1 - 1 / 2251799813685248 := by norm_num
        have := mul_le_mul_of_nonneg_right h2 hb
        linarith) h1
    have h4 : (stock.Price * (1 - (0.01 + 1 / 144115188075855872)) * (1 - 1 / 2251799813685248)
          - 1 / 100) * ((1 - 1 / 9007199254740992) * (1 - 1 / 9007199254740992))
        ≤ (k : ℚ) / 100 * ((1 - 1 / 9007199254740992) * (1 - 1 / 9007199254740992)) :=
      mul_le_mul_of_nonneg_right h3 (by norm_num)
    have h5 : (1 : ℚ) - 0.01 - 1 / 1125899906842624
        ≤ (1 - (0.01 + 1 / 144115188075855872)) * (1 - 1 / 2251799813685248)
          * ((1 - 1 / 9007199254740992) * (1 - 1 / 9007199254740992)) := by norm_num
    have h6 : (stock.Price * (1 - (0.01 + 1 / 144115188075855872)) * (1 - 1 / 2251799813685248)
          - 1 / 100) * ((1 - 1 / 9007199254740992) * (1 - 1 / 9007199254740992))
        = stock.Price * ((1 - (0.01 + 1 / 144115188075855872)) * (1 - 1 / 2251799813685248)
            * ((1 - 1 / 9007199254740992) * (1 - 1 / 9007199254740992)))
          - 1 / 100 * ((1 - 1 / 9007199254740992) * (1 - 1 / 9007199254740992)) := by ring
    have h7 : (1 : ℚ) / 100 * ((1 - 1 / 9007199254740992) * (1 - 1 / 9007199254740992))
        ≤ 1 / 100 := by norm_num
    have h8 := mul_le_mul_of_nonneg_left h5 hp0.le
    rw [h6] at h4
    linarith
  have e1 : f64 (f64 (k : ℚ) / 100) / stock.Price - 1
      = (f64 (f64 (k : ℚ) / 100) - stock.Price) / stock.Price := by
    field_simp
  have e2 : (0.01 : ℚ) + 0.01 / stock.Price + 1 / 1125899906842624
      = (stock.Price * (0.01 + 1 / 1125899906842624) + 0.01) / stock.Price := by
    field_simp
    ring
  rw [e1, e2, abs_div, abs_of_pos hp0]
  apply div_le_div_of_nonneg_right _ hp0.le
  rw [abs_le]
  constructor
  · have : (0.01 : ℚ) = 1 / 100 := by norm_num
    linarith
  · linarith

/-- C4 (amended) at AAPL 178.50 with the draw r = 0.001 (nearest multiple of 2^-53). -/
theorem c4_price_bound_truncated_witness :
    (∃ k : ℤ, 0 ≤ k ∧
      (updateStock64 ovfAmd64 (changePercent64 draw001)
        { Symbol := "AAPL", Price := 178.50, Change := 0 }).Price = f64 (f64 (k : ℚ) / 100)) ∧
    |(updateStock64 ovfAmd64 (changePercent64 draw001)
        { Symbol := "AAPL", Price := 178.50, Change := 0 }).Price / 178.50 - 1|
      ≤ 0.01 + 0.01 / 178.50 + 1 / 1125899906842624 :=
  c4_price_bound_truncated ovfAmd64 { Symbol := "AAPL", Price := 178.50, Change := 0 } draw001
    (by norm_num) (by norm_num) (by unfold draw001; norm_num) (by unfold draw001; norm_num)

/-! ## Lemmas on the registry and the fan-out pass -/

theorem mem_mapDelete {clients : Clients} {conn y : Conn} :
    y ∈ mapDelete clients conn ↔ y ∈ clients ∧ y ≠ conn := by
  simp [mapDelete]

theorem mapDelete_of_not_mem {clients : Clients} {conn : Conn} (h : conn ∉ clients) :
    mapDelete clients conn = clients := by
  unfold mapDelete
  rw [List.filter_eq_self]
  intro c hc
  have : c ≠ conn := fun e => h (e ▸ hc)
  simpa using this

theorem mapDelete_nodup {clients : Clients} (conn : Conn) (h : clients.Nodup) :
    (mapDelete clients conn).Nodup :=
  h.filter _

theorem broadcastTo_ok {update : PriceUpdate} {s : Sys} {client : Conn}
    (hm : client ∈ s.clients) (hb : s.broken.contains client = false) :
    broadcastTo update s client
      = { s with writes := s.writes ++ [{ conn := client, msg := update, ok := true }] } := by
  simp only [broadcastTo, if_pos hm, writeJSON, hb, Bool.not_false]

theorem broadcastTo_fail {update : PriceUpdate} {s : Sys} {client : Conn}
    (hm : client ∈ s.clients) (hb : s.broken.contains client = true) :
    broadcastTo update s client
      = { s with writes := s.writes ++ [{ conn := client, msg := update, ok := false }],
                 closed := s.closed ++ [client],
                 broken := client :: s.broken,
                 clients := mapDelete s.clients client } := by
  simp only [broadcastTo, if_pos hm, writeJSON, hb, Bool.not_true, closeConn]

/-- The effect of ranging over the not yet visited keys `l` of the registry. -/
theorem foldl_broadcastTo (update : PriceUpdate) :
    ∀ (l : List Conn) (t : Sys), l.Nodup → (∀ c ∈ l, c ∈ t.clients) →
      (l.foldl (broadcastTo update) t).clients
          = t.clients.filter (fun c => !(l.contains c && t.broken.contains c)) ∧
      (l.foldl (broadcastTo update) t).writes
          = t.writes ++ l.map (fun c =>
              { conn := c, msg := update, ok := !(t.broken.contains c) }) ∧
      (l.foldl (broadcastTo update) t).prices = t.prices ∧
      (l.foldl (broadcastTo update) t).closed
          = t.closed ++ l.filter (fun c => t.broken.contains c) ∧
      (∀ c, c ∈ (l.foldl (broadcastTo update) t).broken ↔ c ∈ t.broken) := by
  intro l
  induction l with
  | nil =>
    intro t _ _
    simp
  | cons a rest ih =>
    intro t hnd hsub
    have ha : a ∈ t.clients := hsub a (List.mem_cons_self _ _)
    have hnr : rest.Nodup := (List.nodup_cons.mp hnd).2
    have har : a ∉ rest := (List.nodup_cons.mp hnd).1
    rw [List.foldl_cons]
    cases hb : t.broken.contains a with
    | false =>
      have hb' : a ∉ t.broken := by simpa using hb
      rw [broadcastTo_ok ha hb]
      obtain ⟨h1, h2, h3, h4, h5⟩ := ih
        { t with writes := t.writes ++ [{ conn := a, msg := update, ok := true }] } hnr
        (fun c hc => hsub c (List.mem_cons_of_mem _ hc))
      refine ⟨?_, ?_, h3, ?_, h5⟩
      · rw [h1]
        apply List.filter_congr
        intro c _
        by_cases hca : c = a
        · subst hca
          simp [hb']
        · simp [List.contains_cons, hca]
      · rw [h2]
        simp [hb']
      · rw [h4]
        simp [List.filter_cons, hb']
    | true =>
      have hb' : a ∈ t.broken := by simpa using hb
      rw [broadcastTo_fail ha hb]
      obtain ⟨h1, h2, h3, h4, h5⟩ := ih
        { t with writes := t.writes ++ [{ conn := a, msg := update, ok := false }],
                 closed := t.closed ++ [a],
                 broken := a :: t.broken,
                 clients := mapDelete t.clients a } hnr
        (fun c hc => mem_mapDelete.mpr
          ⟨hsub c (List.mem_cons_of_mem _ hc), fun e => har (e ▸ hc)⟩)
      refine ⟨?_, ?_, h3, ?_, ?_⟩
      rotate_right
      · intro c
        rw [h5 c]
        constructor
        · intro h
          rcases List.mem_cons.mp h with rfl | h'
          · exact hb'
          · exact h'
        · exact List.mem_cons_of_mem _
      · rw [h1]
        simp only [mapDelete, List.filter_filter]
        apply List.filter_congr
        intro c _
        by_cases hca : c = a
        · subst hca
          simp [hb']
        · simp [List.contains_cons, hca]
      · rw [h2]
        simp only [List.map_cons, hb, Bool.not_true, List.append_assoc, List.singleton_append,
          List.append_cancel_left_eq, List.cons.injEq, true_and]
        apply List.map_congr_left
        intro c hc
        have hca : c ≠ a := fun e => har (e ▸ hc)
        simp [List.contains_cons, hca]
      · rw [h4]
        simp only [List.filter_cons, hb, if_true, List.append_assoc, List.singleton_append,
          List.append_cancel_left_eq, List.cons.injEq, true_and]
        apply List.filter_congr
        intro c hc
        have hca : c ≠ a := fun e => har (e ▸ hc)
        simp [List.contains_cons, hca]

/-- The state after one fan-out pass over a registry with distinct keys: the
broken connections are removed, every registered connection is written once. -/
theorem handleBroadcasts_spec (update : PriceUpdate) (s : Sys) (hnd : s.clients.Nodup) :
    (handleBroadcasts update s).clients
        = s.clients.filter (fun c => !(s.broken.contains c)) ∧
    (handleBroadcasts update s).writes
        = s.writes ++ s.clients.map (fun c =>
            { conn := c, msg := update, ok := !(s.broken.contains c) }) ∧
    (handleBroadcasts update s).prices = s.prices ∧
    (∀ c, c ∈ (handleBroadcasts update s).broken ↔ c ∈ s.broken) := by
  obtain ⟨h1, h2, h3, _, h5⟩ := foldl_broadcastTo update s.clients s hnd (fun _ h => h)
  refine ⟨?_, h2, h3, h5⟩
  rw [handleBroadcasts, h1]
  apply List.filter_congr
  intro c hc
  simp [hc]

theorem passWrites_nodup (update : PriceUpdate) (ok : Conn → Bool) (l : List Conn)
    (h : l.Nodup) :
    (l.map fun c => ({ conn := c, msg := update, ok := ok c } : Write)).Nodup := by
  apply h.map
  intro a b hab
  exact congrArg Write.conn hab

/-! ## Failure isolation and fan-out completeness -/

/-- C1: in one fan-out pass of handleBroadcasts over a registry (distinct
keys) holding a subscriber x whose write fails, x is removed from the registry,
every registered subscriber whose write does not fail stays registered and is
delivered the update exactly once, no subscriber is added, the failed write to
x is among the writes made, and the pass runs to its end: it makes one write
call per registered subscriber. -/
theorem c1_failure_isolation (s : Sys) (update : PriceUpdate) (x : Conn)
    (hnd : s.clients.Nodup) (hx : x ∈ s.clients) (hfail : x ∈ s.broken) :
    x ∉ (handleBroadcasts update s).clients ∧
    (∀ y ∈ s.clients, y ∉ s.broken →
      y ∈ (handleBroadcasts update s).clients ∧
      (handleBroadcasts update s).writes.count { conn := y, msg := update, ok := true }
        = s.writes.count { conn := y, msg := update, ok := true } + 1) ∧
    (∀ y ∈ (handleBroadcasts update s).clients, y ∈ s.clients) ∧
    { conn := x, msg := update, ok := false } ∈ (handleBroadcasts update s).writes ∧
    (handleBroadcasts update s).writes.length = s.writes.length + s.clients.length := by
  obtain ⟨h1, h2, _, _⟩ := handleBroadcasts_spec update s hnd
  have hwx : ({ conn := x, msg := update, ok := false } : Write)
      ∈ (handleBroadcasts update s).writes := by
    rw [h2]
    apply List.mem_append_right
    apply List.mem_map.mpr
    exact ⟨x, hx, by simp [hfail]⟩
  have hlen : (handleBroadcasts update s).writes.length
      = s.writes.length + s.clients.length := by
    rw [h2]
    simp
  refine ⟨?_, ?_, ?_, hwx, hlen⟩
  · rw [h1]
    simp [hfail]
  · intro y hy hyb
    constructor
    · rw [h1]
      simp [hy, hyb]
    · rw [h2, List.count_append]
      congr 1
      apply List.count_eq_one_of_mem (passWrites_nodup update _ s.clients hnd)
      apply List.mem_map.mpr
      exact ⟨y, hy, by simp [hyb]⟩
  · intro y hy
    rw [h1] at hy
    exact (List.mem_filter.mp hy).1

/-- C2: in one fan-out pass of handleBroadcasts over a registry (distinct
keys) of N subscribers none of whose writes fails, the writes of the pass are N
calls, all successful and all carrying the update, exactly one to each
registered subscriber, and the registry is unchanged. -/
theorem c2_fanout_complete (s : Sys) (update : PriceUpdate)
    (hnd : s.clients.Nodup) (hok : ∀ c ∈ s.clients, c ∉ s.broken) :
    (handleBroadcasts update s).clients = s.clients ∧
    ∃ pass : List Write,
      (handleBroadcasts update s).writes = s.writes ++ pass ∧
      pass.length = s.clients.length ∧
      (∀ c ∈ s.clients, pass.count { conn := c, msg := update, ok := true } = 1) ∧
      (∀ w ∈ pass, w.conn ∈ s.clients ∧ w.msg = update ∧ w.ok = true) := by
  obtain ⟨h1, h2, _, _⟩ := handleBroadcasts_spec update s hnd
  constructor
  · rw [h1, List.filter_eq_self]
    intro c hc
    simpa using hok c hc
  · refine ⟨_, h2, by simp, ?_, ?_⟩
    · intro c hc
      apply List.count_eq_one_of_mem (passWrites_nodup update _ s.clients hnd)
      apply List.mem_map.mpr
      exact ⟨c, hc, by simp [hok c hc]⟩
    · intro w hw
      obtain ⟨c, hc, rfl⟩ := List.mem_map.mp hw
      exact ⟨hc, rfl, by simp [hok c hc]⟩

/-! ## Idempotent removal -/

theorem hwsCleanup_clients (conn : Conn) (s : Sys) :
    (hwsCleanup conn s).clients = mapDelete s.clients conn := rfl

/-- C7: removing a subscriber that is already absent leaves the registry
unchanged, whether by the read-loop cleanup of handleWebSocket run a second time
or run after the failure path of handleBroadcasts has removed the connection;
a removal changes the membership of no other subscriber; the removal is a total
function, it has no error result. -/
theorem c7_idempotent_removal (s : Sys) (conn : Conn) :
    (conn ∉ s.clients → (hwsCleanup conn s).clients = s.clients) ∧
    (hwsCleanup conn (hwsCleanup conn s)).clients = (hwsCleanup conn s).clients ∧
    (∀ y, y ≠ conn → (y ∈ (hwsCleanup conn s).clients ↔ y ∈ s.clients)) ∧
    (∀ update, s.clients.Nodup → conn ∈ s.broken →
      (hwsCleanup conn (handleBroadcasts update s)).clients
        = (handleBroadcasts update s).clients) ∧
    (∀ update y, s.clients.Nodup → y ∉ s.broken →
      (y ∈ (handleBroadcasts update s).clients ↔ y ∈ s.clients)) := by
  refine ⟨?_, ?_, ?_, ?_, ?_⟩
  · intro h
    rw [hwsCleanup_clients, mapDelete_of_not_mem h]
  · rw [hwsCleanup_clients, hwsCleanup_clients, mapDelete_of_not_mem]
    intro h
    exact (mem_mapDelete.mp h).2 rfl
  · intro y hy
    rw [hwsCleanup_clients, mem_mapDelete]
    exact ⟨fun h => h.1, fun h => ⟨h, hy⟩⟩
  · intro update hnd hb
    rw [hwsCleanup_clients, mapDelete_of_not_mem]
    rw [(handleBroadcasts_spec update s hnd).1]
    simp [hb]
  · intro update y hnd hy
    rw [(handleBroadcasts_spec update s hnd).1]
    simp [hy]

/-! ## Admission order -/

/-- C9: from the empty registry, after a and b (distinct) are admitted the
registry is {a, b} and a broadcast of u is written to a and to b; after a's
peer closes and the read-loop cleanup of a runs the registry is {b}, of size 1,
and a broadcast of v is written to b only.  In general, for every state s with
distinct registry keys, the fan-out pass of w after the cleanup of connection x
writes w to the subscribers registered in s other than x, each once, and to
nobody else. -/
theorem c9_removal_then_broadcast (a b : Conn) (u v : PriceUpdate) (hab : a ≠ b)
    (s : Sys) (x : Conn) (w : PriceUpdate) (hnd : s.clients.Nodup) :
    ((hwsAdmit b (hwsAdmit a Sys.init)).clients = [a, b] ∧
     (handleBroadcasts u (hwsAdmit b (hwsAdmit a Sys.init))).writes
        = (hwsAdmit b (hwsAdmit a Sys.init)).writes
          ++ [{ conn := a, msg := u, ok := true }, { conn := b, msg := u, ok := true }] ∧
     (hwsCleanup a (peerClose a
        (handleBroadcasts u (hwsAdmit b (hwsAdmit a Sys.init))))).clients = [b] ∧
     (handleBroadcasts v (hwsCleanup a (peerClose a
        (handleBroadcasts u (hwsAdmit b (hwsAdmit a Sys.init)))))).writes
        = (hwsCleanup a (peerClose a
            (handleBroadcasts u (hwsAdmit b (hwsAdmit a Sys.init))))).writes
          ++ [{ conn := b, msg := v, ok := true }] ∧
     (handleBroadcasts v (hwsCleanup a (peerClose a
        (handleBroadcasts u (hwsAdmit b (hwsAdmit a Sys.init)))))).clients.length = 1) ∧
    (∃ pass : List Write,
      (handleBroadcasts w (hwsCleanup x s)).writes = (hwsCleanup x s).writes ++ pass ∧
      pass.map Write.conn = (hwsCleanup x s).clients ∧
      (∀ e ∈ pass, e.msg = w) ∧
      (∀ y, y ∈ pass.map Write.conn ↔ y ∈ s.clients ∧ y ≠ x) ∧
      (pass.map Write.conn).Nodup) := by
  constructor
  · have hba : b ≠ a := fun e => hab e.symm
    have h1 : (hwsAdmit b (hwsAdmit a Sys.init))
        = { prices := prices, clients := [a, b], broken := [], closed := [],
            writes := [{ conn := a, msg := { Kind := "initial", Prices := prices }, ok := true },
                       { conn := b, msg := { Kind := "initial", Prices := prices }, ok := true }] } := by
      simp [hwsAdmit, hwsSendInitial, hwsRegister, writeJSON, initialUpdate, Sys.init, mapSet, hba]
    rw [h1]
    have h2 : ∀ t : Sys, t.clients = [a, b] → t.broken = [] →
        handleBroadcasts u t
          = { t with writes := t.writes ++ [{ conn := a, msg := u, ok := true },
                                            { conn := b, msg := u, ok := true }] } := by
      intro t hc hb
      simp [handleBroadcasts, broadcastTo, writeJSON, hc, hb]
    rw [h2 _ rfl rfl]
    have h3 : ∀ t : Sys, t.clients = [b] → t.broken = [a, a] →
        handleBroadcasts v t
          = { t with writes := t.writes ++ [{ conn := b, msg := v, ok := true }] } := by
      intro t hc hb
      simp [handleBroadcasts, broadcastTo, writeJSON, hc, hb, hba]
    have hc3 : ∀ ws : List Write,
        hwsCleanup a (peerClose a
          { prices := prices, clients := [a, b], broken := [], closed := [], writes := ws })
          = { prices := prices, clients := [b], broken := [a, a], closed := [a], writes := ws } := by
      intro ws
      simp [hwsCleanup, peerClose, closeConn, mapDelete, hba]
    refine ⟨rfl, rfl, ?_, ?_, ?_⟩
    · rw [hc3]
    · rw [hc3, h3 _ rfl rfl]
    · rw [hc3, h3 _ rfl rfl]
      rfl
  · have hnd' : (hwsCleanup x s).clients.Nodup := mapDelete_nodup x hnd
    obtain ⟨_, h2, _, _⟩ := handleBroadcasts_spec w (hwsCleanup x s) hnd'
    refine ⟨_, h2, ?_, ?_, ?_, ?_⟩
    · simp [List.map_map, Function.comp_def]
    · intro e he
      obtain ⟨c, _, rfl⟩ := List.mem_map.mp he
      rfl
    · intro y
      simp only [List.map_map, Function.comp_def, List.map_id', hwsCleanup_clients]
      exact mem_mapDelete
    · simpa [List.map_map, Function.comp_def] using hnd'

/-! ## Snapshot consistency -/

theorem lockHolders_set : ∀ (l : List Reader) (t : ℕ) (old new : Reader),
    l[t]? = some old →
    lockHolders (l.set t new) + (if old.holdsLock then 1 else 0)
      = lockHolders l + (if new.holdsLock then 1 else 0) := by
  intro l
  induction l with
  | nil => intro t old new h; simp at h
  | cons r rs ih =>
    intro t old new h
    cases t with
    | zero =>
      simp only [List.getElem?_cons_zero, Option.some.injEq] at h
      subst h
      simp only [List.set_cons_zero, lockHolders]
      omega
    | succ t =>
      simp only [List.getElem?_cons_succ] at h
      have := ih t old new h
      simp only [List.set_cons_succ, lockHolders]
      omega

theorem lockHolders_pos : ∀ (l : List Reader) (i : ℕ) (acc : PriceMap),
    Reader.copying i acc ∈ l → 0 < lockHolders l := by
  intro l
  induction l with
  | nil => intro i acc h; simp at h
  | cons r rs ih =>
    intro i acc h
    rcases List.mem_cons.mp h with rfl | h'
    · simp [lockHolders, Reader.holdsLock]
    · have := ih i acc h'
      simp only [lockHolders]
      omega

theorem Inv_init (ovf : ℚ → ℤ) (n : ℕ) : Inv ovf (Conc.init n) where
  worker_idle := fun _ => rfl
  worker_busy := by intro rand i h; simp [Conc.init] at h
  holders := by
    show 0 = lockHolders (List.replicate n Reader.idle)
    induction n with
    | zero => rfl
    | succ n ih => simp [List.replicate_succ, lockHolders, Reader.holdsLock, ← ih]
  exclusive := by intro h; simp [Conc.init] at h
  boundary := fun _ => rfl
  copied := by
    intro i acc h
    simp [Conc.init, List.mem_replicate] at h
  snapshots := by
    intro acc h
    simp [Conc.init, List.mem_replicate] at h
  chain := rfl
  progress := by intro rand i h; simp [Conc.init] at h

theorem no_holder_of_writeLocked {ovf : ℚ → ℤ} {c : Conc} (hI : Inv ovf c) (hw : c.writeLocked = true) :
    ∀ i acc, Reader.copying i acc ∉ c.readers := by
  intro i acc h
  have h1 := lockHolders_pos c.readers i acc h
  have h2 := hI.exclusive hw
  have h3 := hI.holders
  omega

theorem Inv_step {ovf : ℚ → ℤ} {c c' : Conc} {e : Ev} (hI : Inv ovf c)
    (h : step ovf c e = some c') : Inv ovf c' := by
  cases e with
  | lock rand =>
    simp only [step] at h
    cases hw : c.worker with
    | updating r i => simp [hw] at h
    | idle =>
      simp only [hw] at h
      split at h
      · rename_i hg
        simp only [Option.some.injEq] at h
        subst h
        exact {
          worker_idle := by intro h'; simp at h'
          worker_busy := fun _ _ _ => rfl
          holders := hI.holders
          exclusive := fun _ => hg.2
          boundary := by intro h'; simp at h'
          copied := hI.copied
          snapshots := hI.snapshots
          chain := hI.chain
          progress := by
            intro r j h'
            simp only [Worker.updating.injEq] at h'
            obtain ⟨rfl, rfl⟩ := h'
            exact ⟨[], c.prices, hI.boundary hg.1, rfl, rfl⟩ }
      · simp at h
  | update =>
    simp only [step] at h
    cases hw : c.worker with
    | idle => simp [hw] at h
    | updating rand i =>
      simp only [hw] at h
      have hlocked : c.writeLocked = true := hI.worker_busy rand i hw
      cases hp : c.prices[i]? with
      | none => simp [hp] at h
      | some e =>
        obtain ⟨symbol, stock⟩ := e
        simp only [hp, Option.some.injEq] at h
        subst h
        exact {
          worker_idle := by intro h'; simp at h'
          worker_busy := fun _ _ _ => hlocked
          holders := hI.holders
          exclusive := hI.exclusive
          boundary := by
            intro h'
            have : c.writeLocked = false := h'
            rw [hlocked] at this
            exact absurd this (by simp)
          copied := by
            intro j acc hm
            exact absurd hm (no_holder_of_writeLocked hI hlocked j acc)
          snapshots := hI.snapshots
          chain := hI.chain
          progress := by
            intro r j h'
            simp only [Worker.updating.injEq] at h'
            obtain ⟨rfl, rfl⟩ := h'
            obtain ⟨front, todo, h1, h4, h5⟩ := hI.progress rand i hw
            have hlen : (tickPrices64 ovf rand front).length = i := by
              rw [h5]; simp [tickPrices64]
            rw [h4, List.getElem?_append_right (le_of_eq hlen), hlen, Nat.sub_self] at hp
            cases todo with
            | nil => simp at hp
            | cons x todo' =>
              simp only [List.getElem?_cons_zero, Option.some.injEq] at hp
              subst hp
              refine ⟨front ++ [(symbol, stock)], todo', ?_, ?_, by simp [h5]⟩
              · rw [h1]; simp
              · show c.prices.set i (symbol, updateStock64 ovf (changePercent64 (rand symbol)) stock)
                  = tickPrices64 ovf rand (front ++ [(symbol, stock)]) ++ todo'
                rw [h4, List.set_append_right _ _ (le_of_eq hlen), hlen, Nat.sub_self]
                simp [tickPrices64] }
  | unlock =>
    simp only [step] at h
    cases hw : c.worker with
    | idle => simp [hw] at h
    | updating rand i =>
      simp only [hw] at h
      have hlocked : c.writeLocked = true := hI.worker_busy rand i hw
      split at h
      · simp only [Option.some.injEq] at h
        subst h
        exact {
          worker_idle := fun _ => rfl
          worker_busy := by intro r j h'; simp at h'
          holders := hI.holders
          exclusive := by intro h'; simp at h'
          boundary := fun _ => rfl
          copied := by
            intro j acc hm
            exact absurd hm (no_holder_of_writeLocked hI hlocked j acc)
          snapshots := fun acc hm => List.mem_cons_of_mem _ (hI.snapshots acc hm)
          chain := by
            rename_i hg
            obtain ⟨front, todo, h1, h4, h5⟩ := hI.progress rand i hw
            have htodo : todo = [] := by
              have hl : c.prices.length = front.length + todo.length := by
                rw [h4]; simp [tickPrices64]
              have : todo.length = 0 := by omega
              exact List.length_eq_zero.mp this
            subst htodo
            simp only [List.append_nil] at h1 h4
            have hc := hI.chain
            cases hk : c.ticked with
            | nil => rw [hk] at h1; simp at h1
            | cons p rest =>
              rw [hk] at h1 hc
              simp only [List.head?_cons, Option.some.injEq] at h1
              subst h1
              show TickChain ovf (c.prices :: p :: rest)
              exact ⟨⟨rand, h4.symm⟩, hc⟩
          progress := by intro r j h'; simp at h' }
      · simp at h
  | rLock t =>
    simp only [step] at h
    cases hr : c.readers[t]? with
    | none => simp [hr] at h
    | some r =>
      cases r with
      | copying i acc => simp [hr] at h
      | done acc => simp [hr] at h
      | idle =>
        simp only [hr] at h
        split at h
        · rename_i hg
          simp only [Option.some.injEq] at h
          subst h
          have hcount := lockHolders_set c.readers t Reader.idle (Reader.copying 0 []) hr
          simp only [Reader.holdsLock] at hcount
          exact {
            worker_idle := fun _ => hg
            worker_busy := by
              intro r j h'
              have := hI.worker_busy r j h'
              rw [hg] at this
              exact absurd this (by simp)
            holders := by
              have := hI.holders
              show c.readLocks + 1 = lockHolders (c.readers.set t (Reader.copying 0 []))
              simp at hcount
              omega
            exclusive := by
              intro h'
              have : c.writeLocked = true := h'
              rw [hg] at this
              exact absurd this (by simp)
            boundary := hI.boundary
            copied := by
              intro j acc hm
              rcases List.mem_or_eq_of_mem_set hm with h1 | h1
              · exact hI.copied j acc h1
              · simp only [Reader.copying.injEq] at h1
                obtain ⟨rfl, rfl⟩ := h1
                simp
            snapshots := by
              intro acc hm
              rcases List.mem_or_eq_of_mem_set hm with h1 | h1
              · exact hI.snapshots acc h1
              · simp at h1
            chain := hI.chain
            progress := hI.progress }
        · simp at h
  | copy t =>
    simp only [step] at h
    cases hr : c.readers[t]? with
    | none => simp [hr] at h
    | some r =>
      cases r with
      | idle => simp [hr] at h
      | done acc => simp [hr] at h
      | copying i acc =>
        simp only [hr] at h
        cases hp : c.prices[i]? with
        | none => simp [hp] at h
        | some e =>
          simp only [hp, Option.some.injEq] at h
          subst h
          have hmem : Reader.copying i acc ∈ c.readers := List.getElem?_mem hr
          have hcount := lockHolders_set c.readers t (Reader.copying i acc)
            (Reader.copying (i + 1) (acc ++ [e])) hr
          simp only [Reader.holdsLock] at hcount
          exact {
            worker_idle := hI.worker_idle
            worker_busy := hI.worker_busy
            holders := by
              have := hI.holders
              show c.readLocks = lockHolders (c.readers.set t (Reader.copying (i + 1) (acc ++ [e])))
              simp at hcount
              omega
            exclusive := hI.exclusive
            boundary := hI.boundary
            copied := by
              intro j acc' hm
              rcases List.mem_or_eq_of_mem_set hm with h1 | h1
              · exact hI.copied j acc' h1
              · simp only [Reader.copying.injEq] at h1
                obtain ⟨rfl, rfl⟩ := h1
                show acc ++ [e] = c.prices.take (i + 1)
                rw [List.take_succ, hp, ← hI.copied i acc hmem]
                rfl
            snapshots := by
              intro acc' hm
              rcases List.mem_or_eq_of_mem_set hm with h1 | h1
              · exact hI.snapshots acc' h1
              · simp at h1
            chain := hI.chain
            progress := hI.progress }
  | rUnlock t =>
    simp only [step] at h
    cases hr : c.readers[t]? with
    | none => simp [hr] at h
    | some r =>
      cases r with
      | idle => simp [hr] at h
      | done acc => simp [hr] at h
      | copying i acc =>
        simp only [hr] at h
        split at h
        · rename_i hg
          simp only [Option.some.injEq] at h
          subst h
          have hmem : Reader.copying i acc ∈ c.readers := List.getElem?_mem hr
          have hpos := lockHolders_pos c.readers i acc hmem
          have hfree : c.writeLocked = false := by
            cases hwl : c.writeLocked with
            | false => rfl
            | true =>
              have := hI.exclusive hwl
              have := hI.holders
              omega
          have hcount := lockHolders_set c.readers t (Reader.copying i acc) (Reader.done acc) hr
          simp only [Reader.holdsLock] at hcount
          exact {
            worker_idle := fun _ => hfree
            worker_busy := by
              intro r j h'
              have := hI.worker_busy r j h'
              rw [hfree] at this
              exact absurd this (by simp)
            holders := by
              have := hI.holders
              show c.readLocks - 1 = lockHolders (c.readers.set t (Reader.done acc))
              simp at hcount
              omega
            exclusive := by
              intro h'
              have : c.writeLocked = true := h'
              rw [hfree] at this
              exact absurd this (by simp)
            boundary := hI.boundary
            copied := by
              intro j acc' hm
              rcases List.mem_or_eq_of_mem_set hm with h1 | h1
              · exact hI.copied j acc' h1
              · simp at h1
            snapshots := by
              intro acc' hm
              rcases List.mem_or_eq_of_mem_set hm with h1 | h1
              · exact hI.snapshots acc' h1
              · simp only [Reader.done.injEq] at h1
                subst h1
                have h2 : acc' = c.prices := by
                  rw [hI.copied i acc' hmem, List.take_of_length_le hg]
                have h3 := hI.boundary hfree
                rw [h2]
                exact List.mem_of_mem_head? h3
            chain := hI.chain
            progress := hI.progress }
        · simp at h

theorem Inv_run (ovf : ℚ → ℤ) :
    ∀ (evs : List Ev) (c c' : Conc), Inv ovf c → run ovf evs c = some c' → Inv ovf c' := by
  intro evs
  induction evs with
  | nil =>
    intro c c' hI h
    simp only [run, Option.some.injEq] at h
    exact h ▸ hI
  | cons e es ih =>
    intro c c' hI h
    simp only [run] at h
    cases hs : step ovf c e with
    | none => simp [hs] at h
    | some c1 =>
      simp only [hs] at h
      exact ih c1 c' (Inv_step hI hs) h

/-- While a reader holds the read lock no step changes the store. -/
theorem prices_frozen {ovf : ℚ → ℤ} {c c' : Conc} {e : Ev} (hI : Inv ovf c)
    (hr : ∃ i acc, Reader.copying i acc ∈ c.readers) (h : step ovf c e = some c') :
    c'.prices = c.prices := by
  obtain ⟨i, acc, hm⟩ := hr
  cases e with
  | lock rand =>
    simp only [step] at h
    cases hw : c.worker with
    | updating r j => simp [hw] at h
    | idle =>
      simp only [hw] at h
      split at h
      · simp only [Option.some.injEq] at h
        rw [← h]
      · simp at h
  | update =>
    simp only [step] at h
    cases hw : c.worker with
    | idle => simp [hw] at h
    | updating rand j =>
      exact absurd hm (no_holder_of_writeLocked hI (hI.worker_busy rand j hw) i acc)
  | unlock =>
    simp only [step] at h
    cases hw : c.worker with
    | idle => simp [hw] at h
    | updating rand j =>
      simp only [hw] at h
      split at h
      · simp only [Option.some.injEq] at h
        rw [← h]
      · simp at h
  | rLock t =>
    simp only [step] at h
    cases hr : c.readers[t]? with
    | none => simp [hr] at h
    | some r =>
      cases r with
      | copying i acc => simp [hr] at h
      | done acc => simp [hr] at h
      | idle =>
        simp only [hr] at h
        split at h
        · simp only [Option.some.injEq] at h
          rw [← h]
        · simp at h
  | copy t =>
    simp only [step] at h
    cases hr : c.readers[t]? with
    | none => simp [hr] at h
    | some r =>
      cases r with
      | idle => simp [hr] at h
      | done acc => simp [hr] at h
      | copying i acc =>
        simp only [hr] at h
        cases hp : c.prices[i]? with
        | none => simp [hp] at h
        | some e =>
          simp only [hp, Option.some.injEq] at h
          rw [← h]
  | rUnlock t =>
    simp only [step] at h
    cases hr : c.readers[t]? with
    | none => simp [hr] at h
    | some r =>
      cases r with
      | idle => simp [hr] at h
      | done acc => simp [hr] at h
      | copying i acc =>
        simp only [hr] at h
        split at h
        · simp only [Option.some.injEq] at h
          rw [← h]
        · simp at h

/-- The snapshot a reader leaves at its `RUnlock` is the store of that moment,
and no tick is in progress then. -/
theorem snapshot_at_unlock {ovf : ℚ → ℤ} {c c' : Conc} {t : ℕ} (hI : Inv ovf c)
    (h : step ovf c (Ev.rUnlock t) = some c') :
    c'.readers[t]? = some (Reader.done c.prices) ∧ c.writeLocked = false ∧
      c.worker = Worker.idle ∧ c.ticked.head? = some c.prices ∧
      c'.prices = c.prices ∧ c'.ticked = c.ticked := by
  simp only [step] at h
  cases hr : c.readers[t]? with
  | none => simp [hr] at h
  | some r =>
    cases r with
    | idle => simp [hr] at h
    | done acc => simp [hr] at h
    | copying i acc =>
      simp only [hr] at h
      split at h
      · rename_i hg
        simp only [Option.some.injEq] at h
        have hmem : Reader.copying i acc ∈ c.readers := List.getElem?_mem hr
        have hpos := lockHolders_pos c.readers i acc hmem
        have hfree : c.writeLocked = false := by
          cases hwl : c.writeLocked with
          | false => rfl
          | true =>
            have := hI.exclusive hwl
            have := hI.holders
            omega
        have hacc : acc = c.prices := by
          rw [hI.copied i acc hmem, List.take_of_length_le hg]
        have hidle : c.worker = Worker.idle := by
          cases hw : c.worker with
          | idle => rfl
          | updating rand j =>
            have := hI.worker_busy rand j hw
            rw [hfree] at this
            exact absurd this (by simp)
        have hlt : t < c.readers.length := by
          by_contra hcon
          rw [List.getElem?_eq_none (not_lt.mp hcon)] at hr
          exact absurd hr (by simp)
        refine ⟨?_, hfree, hidle, hI.boundary hfree, ?_, ?_⟩
        · rw [← h, ← hacc]
          simp [hlt]
        · rw [← h]
        · rw [← h]
      · simp at h

/-- C10: in every state the interleaved system reaches from its start state,
with any number of reader goroutines (the snapshot loops of handleWebSocket and
getPrices) and under any schedule: (1) while a reader holds the read lock no
step changes the store, so no tick runs concurrently with the copy; (2) the
snapshot a reader completes is exactly the store of that moment, all
instruments alike, taken when no tick is in progress, and that store is the
latest entry of the history of completed ticks; (3) that history is a chain of
whole ticks from the seeded catalog, and every completed snapshot is one of its
entries.  A snapshot therefore holds the values of all instruments from before
a tick or from after it, never a mix. -/
theorem c10_snapshot_consistency (ovf : ℚ → ℤ) (n : ℕ) (evs : List Ev) (c : Conc)
    (h : run ovf evs (Conc.init n) = some c) :
    (∀ e c', (∃ i acc, Reader.copying i acc ∈ c.readers) → step ovf c e = some c' →
      c'.prices = c.prices) ∧
    (∀ t c', step ovf c (Ev.rUnlock t) = some c' →
      c'.readers[t]? = some (Reader.done c.prices) ∧ c.writeLocked = false ∧
      c.worker = Worker.idle ∧ c.ticked.head? = some c.prices ∧
      c'.prices = c.prices ∧ c'.ticked = c.ticked) ∧
    TickChain ovf c.ticked ∧
    (∀ snap, Reader.done snap ∈ c.readers → snap ∈ c.ticked) := by
  have hI := Inv_run ovf evs (Conc.init n) c (Inv_init ovf n) h
  exact ⟨fun e c' hr hs => prices_frozen hI hr hs, fun t c' hs => snapshot_at_unlock hI hs,
    hI.chain, hI.snapshots⟩

/-- The schedule `readTickRead` can be run: reader 0 holds the seeded store,
the tick has changed the store, reader 1 has copied the new store. -/
theorem readTickRead_runs (ovf : ℚ → ℤ) :
    run ovf readTickRead (Conc.init 2)
      = some { prices := tickPrices64 ovf (fun _ => 0.75) prices,
               writeLocked := false, readLocks := 1, worker := Worker.idle,
               readers := [Reader.done prices,
                           Reader.copying 5 (tickPrices64 ovf (fun _ => 0.75) prices)],
               ticked := [tickPrices64 ovf (fun _ => 0.75) prices, prices] } := by
  rfl

theorem readTickRead_unlock (ovf : ℚ → ℤ) :
    step ovf { prices := tickPrices64 ovf (fun _ => 0.75) prices,
               writeLocked := false, readLocks := 1, worker := Worker.idle,
               readers := [Reader.done prices,
                           Reader.copying 5 (tickPrices64 ovf (fun _ => 0.75) prices)],
               ticked := [tickPrices64 ovf (fun _ => 0.75) prices, prices] } (Ev.rUnlock 1)
      = some { prices := tickPrices64 ovf (fun _ => 0.75) prices,
               writeLocked := false, readLocks := 0, worker := Worker.idle,
               readers := [Reader.done prices,
                           Reader.done (tickPrices64 ovf (fun _ => 0.75) prices)],
               ticked := [tickPrices64 ovf (fun _ => 0.75) prices, prices] } := by
  rfl

/-- The tick with every draw r = 0.75 changes the seeded store. -/
theorem tick75_changes : tickPrices64 ovfAmd64 (fun _ => 0.75) prices ≠ prices := by
  intro h
  have h1 := congrArg (fun l : PriceMap => l.head?.map fun e => e.2.Change) h
  have h2 := congrArg Stock.Change aapl_tick_75
  simp only [tickPrices64, prices, List.map_cons, List.head?_cons, Option.map_some',
    Option.some.injEq] at h1
  rw [h2] at h1
  norm_num at h1

/-- C10 on the schedule `readTickRead`: reader 0 completes before the tick and
holds the seeded store, reader 1 completes after it and holds the store the
tick left, which differs; the worker cannot lock while a reader holds the read
lock, and a reader cannot lock while the worker holds the write lock. -/
theorem c10_snapshot_consistency_witness :
    tickPrices64 ovfAmd64 (fun _ => 0.75) prices ≠ prices ∧
    run ovfAmd64 [Ev.rLock 0, Ev.lock (fun _ => 0.75)] (Conc.init 2) = none ∧
    run ovfAmd64 [Ev.lock (fun _ => 0.75), Ev.rLock 0] (Conc.init 2) = none ∧
    ∃ c c', run ovfAmd64 readTickRead (Conc.init 2) = some c ∧
      step ovfAmd64 c (Ev.rUnlock 1) = some c' ∧
      c'.readers = [Reader.done prices,
                    Reader.done (tickPrices64 ovfAmd64 (fun _ => 0.75) prices)] ∧
      c'.readers[1]? = some (Reader.done c.prices) ∧ c.writeLocked = false ∧
      c.worker = Worker.idle ∧ c.ticked.head? = some c.prices ∧
      c'.prices = c.prices ∧ c'.ticked = c.ticked :=
  ⟨tick75_changes, rfl, rfl, _, _, readTickRead_runs ovfAmd64, readTickRead_unlock ovfAmd64, rfl,
   (c10_snapshot_consistency ovfAmd64 2 readTickRead _ (readTickRead_runs ovfAmd64)).2.1 1 _
     (readTickRead_unlock ovfAmd64)⟩

/-! ## Instances on concrete states -/

/-- C1 on the registry {1, 2, 3} with the write to 1 failing: 1 is removed, 2
and 3 stay, the three writes are made and only the one to 1 fails. -/
theorem c1_failure_isolation_witness :
    (handleBroadcasts someUpdate oneBroken).clients = [2, 3] ∧
    (handleBroadcasts someUpdate oneBroken).writes.map (fun w => (w.conn, w.ok))
      = [(1, false), (2, true), (3, true)] ∧
    1 ∉ (handleBroadcasts someUpdate oneBroken).clients ∧
    (∀ y ∈ oneBroken.clients, y ∉ oneBroken.broken →
      y ∈ (handleBroadcasts someUpdate oneBroken).clients ∧
      (handleBroadcasts someUpdate oneBroken).writes.count
          { conn := y, msg := someUpdate, ok := true }
        = oneBroken.writes.count { conn := y, msg := someUpdate, ok := true } + 1) :=
  ⟨by decide, by decide,
   (c1_failure_isolation oneBroken someUpdate 1 (by decide) (by decide) (by decide)).1,
   (c1_failure_isolation oneBroken someUpdate 1 (by decide) (by decide) (by decide)).2.1⟩

/-- C2 on the registry {1, 2, 3} with no failing write. -/
theorem c2_fanout_complete_witness :
    (handleBroadcasts someUpdate allLive).writes.map (fun w => (w.conn, w.ok))
      = [(1, true), (2, true), (3, true)] ∧
    (handleBroadcasts someUpdate allLive).clients = allLive.clients ∧
    ∃ pass : List Write,
      (handleBroadcasts someUpdate allLive).writes = allLive.writes ++ pass ∧
      pass.length = allLive.clients.length ∧
      (∀ c ∈ allLive.clients, pass.count { conn := c, msg := someUpdate, ok := true } = 1) ∧
      (∀ w ∈ pass, w.conn ∈ allLive.clients ∧ w.msg = someUpdate ∧ w.ok = true) :=
  ⟨by decide, c2_fanout_complete allLive someUpdate (by decide) (by decide)⟩

/-- C7 on the registry {1, 2, 3}: the cleanup of the absent connection 7
changes nothing, and the cleanup of connection 1 after the pass that removed it
changes nothing. -/
theorem c7_idempotent_removal_witness :
    (hwsCleanup 7 oneBroken).clients = oneBroken.clients ∧
    (hwsCleanup 1 (handleBroadcasts someUpdate oneBroken)).clients
      = (handleBroadcasts someUpdate oneBroken).clients ∧
    (hwsCleanup 1 (handleBroadcasts someUpdate oneBroken)).clients = [2, 3] :=
  ⟨(c7_idempotent_removal oneBroken 7).1 (by decide),
   (c7_idempotent_removal oneBroken 1).2.2.2.1 someUpdate (by decide) (by decide),
   by decide⟩

/-- C9 with a = 1, b = 2 and, for the general part, the registry {1, 2, 3}
after the cleanup of connection 2. -/
theorem c9_removal_then_broadcast_witness :
    (handleBroadcasts someUpdate (hwsCleanup 1 (peerClose 1
        (handleBroadcasts someUpdate (hwsAdmit 2 (hwsAdmit 1 Sys.init)))))).clients.length = 1 ∧
    ∃ pass : List Write,
      (handleBroadcasts someUpdate (hwsCleanup 2 allLive)).writes
        = (hwsCleanup 2 allLive).writes ++ pass ∧
      pass.map Write.conn = (hwsCleanup 2 allLive).clients ∧
      (∀ e ∈ pass, e.msg = someUpdate) ∧
      (∀ y, y ∈ pass.map Write.conn ↔ y ∈ allLive.clients ∧ y ≠ 2) ∧
      (pass.map Write.conn).Nodup :=
  ⟨(c9_removal_then_broadcast 1 2 someUpdate someUpdate (by decide) allLive 2 someUpdate
      (by decide)).1.2.2.2.2,
   (c9_removal_then_broadcast 1 2 someUpdate someUpdate (by decide) allLive 2 someUpdate
      (by decide)).2⟩

end Trading
